import Mathlib

/-!
# Verification development for `validate.go`

A shallow embedding of the four validators of package `validate`
(`ValidateUSCI`, `ValidateIDCard`, `ValidatePhone`, `ValidateBuidlingCode`) and of
their shared helper `genCheckCode`, followed by theorems about them.

Conventions of the embedding:

* a Go `string` is a list of bytes, `len` is the number of bytes, `s[i]` is a byte;
* a Go `int` is a 64-bit two's-complement integer, as on every 64-bit platform: the
  `+`, `-`, `*` of the checksums are followed by `wrap64`, and `%` is the truncated
  remainder;
* a run-time panic (index or slice out of range, division by zero) is the result `none`;
* `regexp.MatchString` decodes the text into runes the way Go does (an invalid byte is
  the rune `U+FFFD` of width 1) and matches the rune sequence against the pattern. All
  patterns of the package are of the form `^body$` without flags, so a match is a match
  of `body` against the whole text.
-/

namespace Validate

/-! ## Go strings, runes and integers -/

/-- Go `string`: a sequence of bytes. A rune (Unicode code point) is a natural number. -/
abbrev GoString := List UInt8

/-- Bytes of a string literal: its UTF-8 encoding. -/
def GoString.ofString (s : String) : GoString :=
  s.data.flatMap String.utf8EncodeChar

/-- Go conversion `string(b)` of a byte: the string made of the one rune `b`. -/
def byteToString (b : UInt8) : String :=
  String.singleton (Char.ofNat b.toNat)

/-- Two's-complement wrap-around of a 64-bit Go `int`. -/
def wrap64 (x : Int) : Int :=
  (x + 2 ^ 63) % 2 ^ 64 - 2 ^ 63

/-- Go `s[i]` for an `int` index: `none` is the index-out-of-range panic. -/
def index {α : Type} (s : List α) (i : Int) : Option α :=
  if i < 0 then none else s[i.toNat]?

/-- Go `s[lo:hi]`: `none` is the slice-bounds-out-of-range panic. -/
def slice (s : GoString) (lo hi : Nat) : Option GoString :=
  if lo ≤ hi ∧ hi ≤ s.length then some ((s.take hi).drop lo) else none

/-- Go map lookup `m[k]` on a `map[string]int`: the zero value when the key is absent. -/
def mapGet (m : List (String × Int)) (k : String) : Int :=
  (m.lookup k).getD 0

/-! ## UTF-8 decoding, as done by `unicode/utf8` -/

/-- The rune `utf8.RuneError`. -/
def RuneError : Nat := 0xFFFD

/-- Range accepted for the second byte of a multi-byte sequence with first byte `s0`
(`acceptRanges` of `unicode/utf8`). -/
def acceptRange (s0 : Nat) : Nat × Nat :=
  if s0 = 0xE0 then (0xA0, 0xBF)
  else if s0 = 0xED then (0x80, 0x9F)
  else if s0 = 0xF0 then (0x90, 0xBF)
  else if s0 = 0xF4 then (0x80, 0x8F)
  else (0x80, 0xBF)

/-- Continuation byte `0x80..0xBF`. -/
def isCont (b : UInt8) : Bool :=
  decide (0x80 ≤ b.toNat ∧ b.toNat ≤ 0xBF)

/-- Second byte within the range its first byte `s0` accepts. -/
def isSecond (s0 : Nat) (b : UInt8) : Bool :=
  decide ((acceptRange s0).1 ≤ b.toNat ∧ b.toNat ≤ (acceptRange s0).2)

/-- Go `utf8.DecodeRuneInString`: the first rune of the text and its width in bytes.
An invalid or truncated encoding is `(RuneError, 1)`; the empty text is `(RuneError, 0)`.
The masks and shifts of the original are written with `%` and `*`. -/
def decodeRune : GoString → Nat × Nat
  | [] => (RuneError, 0)
  | b0 :: rest =>
    let s0 := b0.toNat
    if s0 < 0x80 then (s0, 1)
    else if 0xC2 ≤ s0 ∧ s0 ≤ 0xDF then
      match rest with
      | b1 :: _ =>
        if isSecond s0 b1 then (s0 % 32 * 64 + b1.toNat % 64, 2) else (RuneError, 1)
      | _ => (RuneError, 1)
    else if 0xE0 ≤ s0 ∧ s0 ≤ 0xEF then
      match rest with
      | b1 :: b2 :: _ =>
        if isSecond s0 b1 && isCont b2 then
          (s0 % 16 * 4096 + b1.toNat % 64 * 64 + b2.toNat % 64, 3)
        else (RuneError, 1)
      | _ => (RuneError, 1)
    else if 0xF0 ≤ s0 ∧ s0 ≤ 0xF4 then
      match rest with
      | b1 :: b2 :: b3 :: _ =>
        if isSecond s0 b1 && isCont b2 && isCont b3 then
          (s0 % 8 * 262144 + b1.toNat % 64 * 4096 + b2.toNat % 64 * 64 + b3.toNat % 64, 4)
        else (RuneError, 1)
      | _ => (RuneError, 1)
    else (RuneError, 1)

/-- Runes of a text, decoding at most `fuel` of them. -/
def runesFuel : Nat → GoString → List Nat
  | 0, _ => []
  | _, [] => []
  | fuel + 1, b :: rest =>
    (decodeRune (b :: rest)).1 :: runesFuel fuel ((b :: rest).drop (decodeRune (b :: rest)).2)

/-- Runes of a text: the sequence a `for range` loop or the regexp engine reads. Every
rune takes at least one byte, so the number of bytes is enough fuel. -/
def runes (s : GoString) : List Nat :=
  runesFuel s.length s

/-! ## Regular expressions -/

/-- Abstract syntax of the fragment of Go (RE2) regular expressions the package uses. -/
inductive Regex where
  /-- Literal character. -/
  | chr (c : Char)
  /-- Character class, a union of inclusive ranges, e.g. `[0-9T]`. -/
  | cls (ranges : List (Char × Char))
  /-- Concatenation. -/
  | cat (a b : Regex)
  /-- Alternation `a|b`. -/
  | alt (a b : Regex)
  /-- Bounded repetition `r{n}`. -/
  | rep (r : Regex) (n : Nat)
  /-- Repetition `r+`. -/
  | plus (r : Regex)

/-- Membership of a rune in a union of inclusive ranges. -/
def inClass (ranges : List (Char × Char)) (c : Nat) : Bool :=
  ranges.any fun p => decide (p.1.toNat ≤ c ∧ c ≤ p.2.toNat)

/-- Apply a matcher `n` times in sequence. -/
def iter (f : List Nat → List (List Nat)) : Nat → List Nat → List (List Nat)
  | 0, s => [s]
  | n + 1, s => (f s).flatMap (iter f n)

/-- Apply a matcher one or more times in sequence, at most `fuel + 1` times. -/
def iterPlus (f : List Nat → List (List Nat)) : Nat → List Nat → List (List Nat)
  | 0, s => f s
  | fuel + 1, s => f s ++ (f s).flatMap (iterPlus f fuel)

/-- All ways a regular expression matches a prefix of the text: the list of the texts
left after each match. -/
def Regex.run : Regex → List Nat → List (List Nat)
  | .chr _, [] => []
  | .chr c, x :: t => if x = c.toNat then [t] else []
  | .cls _, [] => []
  | .cls rs, x :: t => if inClass rs x then [t] else []
  | .cat a b, s => (a.run s).flatMap b.run
  | .alt a b, s => a.run s ++ b.run s
  | .rep r n, s => iter r.run n s
  | .plus r, s => iterPlus r.run s.length s

/-- Go `regexp.MatchString` for a pattern `^body$`: whether `body` matches the whole
text. The error result is always `nil`, the patterns being valid constants. -/
def matchString (body : Regex) (s : GoString) : Bool :=
  (body.run (runes s)).any List.isEmpty

/-- The class `[0-9]`. -/
def reDigit : Regex := .cls [('0', '9')]

/-- The class `\w`, which in Go is `[0-9A-Za-z_]`. -/
def reWord : Regex := .cls [('0', '9'), ('A', 'Z'), ('_', '_'), ('a', 'z')]

/-- The literal of two characters `ab`. -/
def reLit2 (a b : Char) : Regex := .cat (.chr a) (.chr b)

/-! ## Phone numbers -/

/-- Body of the pattern `^1[0-9]{10}$`. -/
def phonePattern : Regex :=
  .cat (.chr '1') (.rep reDigit 10)

/-- Go `ValidatePhone`. -/
def ValidatePhone (code : GoString) : Bool :=
  matchString phonePattern code

/-! ## `strconv` -/

/-- Go `strconv.ParseInt(s, 10, 64)`: an optional sign followed by one or more decimal
digits, the value being within the 64-bit range; `none` is a non-nil error. -/
def parseInt (s : String) : Option Int :=
  let body : List Char :=
    match s.data with
    | [] => []
    | c :: rest => if c = '+' ∨ c = '-' then rest else c :: rest
  if body = [] ∨ ¬ (body.all fun c => decide ('0'.toNat ≤ c.toNat ∧ c.toNat ≤ '9'.toNat)) then
    none
  else
    let un : Nat := body.foldl (fun acc c => 10 * acc + (c.toNat - '0'.toNat)) 0
    let v : Int := if s.data.head? = some '-' then -(un : Int) else (un : Int)
    if -(2 ^ 63) ≤ v ∧ v < 2 ^ 63 then some v else none

/-- Go `v, _ := strconv.Atoi(s)` on the one-rune strings it is applied to here: the
value, or `0` when the conversion fails. -/
def atoi (s : String) : Int :=
  (parseInt s).getD 0

/-! ## The shared checksum helper -/

/-- Loop of `genCheckCode`: `i` is the loop index, `value` the running sum, the first
argument the bytes `code[i:]` still to be read. -/
def genCheckCodeLoop (factors : List Int) (checkCodes : List (String × Int)) :
    GoString → Nat → Int → Option Int
  | [], _, value => some value
  | b :: rest, i, value =>
    match factors[i]? with
    | none => none
    | some f =>
      let ch := byteToString b
      match parseInt ch with
      | some v => genCheckCodeLoop factors checkCodes rest (i + 1) (wrap64 (value + wrap64 (v * f)))
      | none =>
        genCheckCodeLoop factors checkCodes rest (i + 1)
          (wrap64 (value + wrap64 (mapGet checkCodes ch * f)))

/-- Go `genCheckCode`. -/
def genCheckCode (code : GoString) (factors : List Int) (mode : Int)
    (checkCodes : List (String × Int)) : Option Int :=
  match genCheckCodeLoop factors checkCodes code 0 0 with
  | none => none
  | some value => if mode = 0 then none else some (wrap64 (mode - Int.tmod value mode))

/-! ## Unified social credit codes -/

/-- The group `(11|12|13|19|51|52|53|59|91|92|93|Y1)`. -/
def usciPrefixPattern : Regex :=
  .alt (reLit2 '1' '1') (.alt (reLit2 '1' '2') (.alt (reLit2 '1' '3') (.alt (reLit2 '1' '9')
  (.alt (reLit2 '5' '1') (.alt (reLit2 '5' '2') (.alt (reLit2 '5' '3') (.alt (reLit2 '5' '9')
  (.alt (reLit2 '9' '1') (.alt (reLit2 '9' '2') (.alt (reLit2 '9' '3') (reLit2 'Y' '1')))))))))))

/-- Body of the pattern `^(11|12|13|19|51|52|53|59|91|92|93|Y1)[0-9]{6}\w{9}\w$`. -/
def usciPattern : Regex :=
  .cat (.cat (.cat usciPrefixPattern (.rep reDigit 6)) (.rep reWord 9)) reWord

/-- The map `organizationCheckCodes`. -/
def organizationCheckCodes : List (String × Int) :=
  [("0", 0), ("1", 1), ("2", 2), ("3", 3), ("4", 4), ("5", 5), ("6", 6), ("7", 7), ("8", 8),
   ("9", 9), ("A", 10), ("B", 11), ("C", 12), ("D", 13), ("E", 14), ("F", 15), ("G", 16),
   ("H", 17), ("I", 18), ("J", 19), ("K", 20), ("L", 21), ("M", 22), ("N", 23), ("O", 24),
   ("P", 25), ("Q", 26), ("R", 27), ("S", 28), ("T", 29), ("U", 30), ("V", 31), ("W", 32),
   ("X", 33), ("Y", 34), ("Z", 35)]

/-- The map `socialCreditCheckCodes`. -/
def socialCreditCheckCodes : List (String × Int) :=
  [("0", 0), ("1", 1), ("2", 2), ("3", 3), ("4", 4), ("5", 5), ("6", 6), ("7", 7), ("8", 8),
   ("9", 9), ("A", 10), ("B", 11), ("C", 12), ("D", 13), ("E", 14), ("F", 15), ("G", 16),
   ("H", 17), ("J", 18), ("K", 19), ("L", 20), ("M", 21), ("N", 22), ("P", 23), ("Q", 24),
   ("R", 25), ("T", 26), ("U", 27), ("W", 28), ("X", 29), ("Y", 30)]

/-- First value of `stringCodes`. -/
def stringCodes36 : GoString := GoString.ofString "0123456789ABCDEFGHIJKLMNOPQRSTUVWXYZ"

/-- Second value of `stringCodes`. -/
def stringCodes31 : GoString := GoString.ofString "0123456789ABCDEFGHJKLMNPQRTUWXY"

/-- First value of `factors` in `ValidateUSCI`. -/
def orgFactors : List Int := [3, 7, 9, 10, 5, 8, 4, 2]

/-- Second value of `factors` in `ValidateUSCI`. -/
def usciFactors : List Int := [1, 3, 9, 27, 19, 26, 16, 17, 20, 29, 25, 13, 8, 24, 10, 30, 28]

/-- The first `switch checkCode` of `ValidateUSCI`. -/
def remapOrg (checkCode : Int) : Int :=
  if checkCode = 11 then 0 else if checkCode = 10 then 33 else checkCode

/-- The second `switch checkCode` of `ValidateUSCI`. -/
def remapUsci (checkCode : Int) : Int :=
  if checkCode = 31 then 0 else checkCode

/-- Go `ValidateUSCI`; `none` is a panic. -/
def ValidateUSCI (code : GoString) : Option Bool :=
  if code.length = 15 then some true
  else if !matchString usciPattern code then some false
  else do
    let organizationCode ← slice code 8 17
    let checkCode ← genCheckCode (← slice organizationCode 0 8) orgFactors 11 organizationCheckCodes
    let checkCode := remapOrg checkCode
    if (← index stringCodes36 checkCode) != (← index organizationCode 8) then some false
    else do
      let checkCode ← genCheckCode (← slice code 0 17) usciFactors 31 socialCreditCheckCodes
      let checkCode := remapUsci checkCode
      some ((← index stringCodes31 checkCode) == (← index code 17))

/-! ## Resident identity cards -/

/-- Body of the pattern `^[1-9][0-9]{14}([0-9]{2}[0-9X])$`. -/
def idCardPattern : Regex :=
  .cat (.cat (.cls [('1', '9')]) (.rep reDigit 14))
    (.cat (.rep reDigit 2) (.cls [('0', '9'), ('X', 'X')]))

/-- The slice `factors` of `ValidateIDCard`. -/
def idFactors : List Int := [7, 9, 10, 5, 8, 4, 2, 1, 6, 3, 7, 9, 10, 5, 8, 4, 2]

/-- The slice `checkCodes` of `ValidateIDCard`. -/
def idCheckCodes : List String := ["1", "0", "X", "9", "8", "7", "6", "5", "4", "3", "2"]

/-- The loop `value += factors[i] * items[i]` of `ValidateIDCard`: `i` is the loop index,
the second argument the factors `factors[i:]` still to be read. -/
def idSumLoop (items : List Int) : List Int → Nat → Int → Option Int
  | [], _, value => some value
  | f :: fs, i, value =>
    match items[i]? with
    | none => none
    | some x => idSumLoop items fs (i + 1) (wrap64 (value + wrap64 (f * x)))

/-- Go `ValidateIDCard`; `none` is a panic. -/
def ValidateIDCard (code : GoString) : Option Bool :=
  if !matchString idCardPattern code then some false
  else do
    let items : List Int := (code.take (code.length - 1)).map fun b => atoi (byteToString b)
    let value ← idSumLoop items idFactors 0 0
    let expected ← index idCheckCodes (Int.tmod value 11)
    let last ← index code ((code.length : Int) - 1)
    some (expected == byteToString last)

/-! ## Building codes -/

/-- Body of the pattern `^[1-9][0-9T]+$`. -/
def buildingPattern : Regex :=
  .cat (.cls [('1', '9')]) (.plus (.cls [('0', '9'), ('T', 'T')]))

/-- Go `strings.Count(s, sep)` for a separator of one ASCII character: the number of
bytes of `s` equal to it. -/
def stringsCount (s : GoString) (sep : Char) : Nat :=
  (s.filter fun b => b.toNat == sep.toNat).length

/-- Go `ValidateBuidlingCode`. -/
def ValidateBuidlingCode (code : GoString) : Bool :=
  if !([19, 25].contains code.length) then false
  else if stringsCount code 'T' > 1 then false
  else matchString buildingPattern code

/-! ## Specification-side definitions

The specification speaks about the characters of a text. A character is a rune of the
text, so the predicates below are stated on rune sequences and applied to `runes code`. -/

/-- Runes of a string literal. -/
def runesOf (s : String) : List Nat :=
  s.data.map Char.toNat

/-- ASCII digit `0`-`9`. -/
def isDigit (c : Nat) : Bool :=
  decide ('0'.toNat ≤ c ∧ c ≤ '9'.toNat)

/-- Digit `1`-`9`. -/
def isNonzeroDigit (c : Nat) : Bool :=
  decide ('1'.toNat ≤ c ∧ c ≤ '9'.toNat)

/-- Alphanumeric character: an ASCII digit or an ASCII letter. -/
def isAlnum (c : Nat) : Bool :=
  isDigit c || decide ('A'.toNat ≤ c ∧ c ≤ 'Z'.toNat) || decide ('a'.toNat ≤ c ∧ c ≤ 'z'.toNat)

/-- Word character: alphanumeric or underscore. -/
def isWordChar (c : Nat) : Bool :=
  isAlnum c || c == '_'.toNat

/-- A phone number: 11 characters, the first `1`, all of them digits. -/
def isPhoneNumber (r : List Nat) : Prop :=
  r.length = 11 ∧ r.head? = some '1'.toNat ∧ ∀ c ∈ r, isDigit c = true

/-- A building code: 19 or 25 characters, at most one `T`, the first character a digit
`1`-`9` and every later one a digit or `T`. -/
def isBuildingCode (r : List Nat) : Prop :=
  (r.length = 19 ∨ r.length = 25) ∧ r.count 'T'.toNat ≤ 1 ∧
    isNonzeroDigit (r.headD 0) = true ∧ ∀ c ∈ r.tail, (isDigit c || c == 'T'.toNat) = true

/-- The twelve two-character prefixes of a credit code. -/
def usciPrefixes : List (List Nat) :=
  ["11", "12", "13", "19", "51", "52", "53", "59", "91", "92", "93", "Y1"].map runesOf

/-- The 18-character credit-code pattern: one of the twelve prefixes, six digits, then
ten characters of the class `tail` (nine of the organization identifier and the trailing
check character). The specification reads `tail` as alphanumeric (`isAlnum`). -/
def matchesUSCIPattern (tail : Nat → Bool) (r : List Nat) : Prop :=
  r.length = 18 ∧ r.take 2 ∈ usciPrefixes ∧ (∀ c ∈ (r.drop 2).take 6, isDigit c = true) ∧
    ∀ c ∈ r.drop 8, tail c = true

/-- Range of a 64-bit Go `int`. -/
def inInt64 (x : Int) : Prop :=
  -(2 ^ 63) ≤ x ∧ x < 2 ^ 63

/-- Weight of a character in a checksum: its numeric value when it is a base-10 digit,
otherwise the weight the table gives it, `0` when the table has no entry for it. -/
def charWeight (checkCodes : List (String × Int)) (b : UInt8) : Int :=
  if isDigit b.toNat then (b.toNat : Int) - ('0'.toNat : Int) else mapGet checkCodes (byteToString b)

/-- The exact sum `S` of a checksum: the sum over the positions of the fragment of the
weight of the character times the factor at the same position. -/
def exactSum (checkCodes : List (String × Int)) (code : GoString) (factors : List Int) : Int :=
  (List.zipWith (fun b f => charWeight checkCodes b * f) code factors).sum

/-- The 36-symbol alphabet of organization codes. -/
def alphabet36 : List Nat := runesOf "0123456789ABCDEFGHIJKLMNOPQRSTUVWXYZ"

/-- The 31-symbol alphabet of credit codes. -/
def alphabet31 : List Nat := runesOf "0123456789ABCDEFGHJKLMNPQRTUWXY"

/-- Weight of a character in the 36-symbol alphabet: `0`-`9`, `A`-`Z` are `0..35`. -/
def w36 (c : Nat) : Nat := alphabet36.indexOf c

/-- Weight of a character in the 31-symbol alphabet: its index. -/
def w31 (c : Nat) : Nat := alphabet31.indexOf c

/-- Weighted sum of the characters `cs` under the weights `w` and the factors `fs`. -/
def weightedSum (w : Nat → Nat) (cs fs : List Nat) : Nat :=
  (List.zipWith (fun c f => w c * f) cs fs).sum

/-- Organization check character of the eight characters `body`. -/
def orgCheckChar (body : List Nat) : Nat :=
  let c := 11 - weightedSum w36 body [3, 7, 9, 10, 5, 8, 4, 2] % 11
  if c = 11 then '0'.toNat else if c = 10 then alphabet36.getD 33 0 else '0'.toNat + c

/-- Overall check character of the first seventeen characters. -/
def usciCheckChar (first17 : List Nat) : Nat :=
  let k := 31 - weightedSum w31 first17
    [1, 3, 9, 27, 19, 26, 16, 17, 20, 29, 25, 13, 8, 24, 10, 30, 28] % 31
  alphabet31.getD (if k = 31 then 0 else k) 0

/-- The four conditions of a valid 18-character credit code: (a) prefix, (b) region
digits, (c) organization check character at the 17th position, (d) overall check
character at the 18th position. -/
def isValidUSCI (r : List Nat) : Prop :=
  r.take 2 ∈ usciPrefixes ∧ (∀ c ∈ (r.drop 2).take 6, isDigit c = true) ∧
    r[16]? = some (orgCheckChar ((r.drop 8).take 8)) ∧
    r[17]? = some (usciCheckChar (r.take 17))

/-- The table of check characters of an identity card. -/
def idTable : List Nat :=
  ['1', '0', 'X', '9', '8', '7', '6', '5', '4', '3', '2'].map Char.toNat

/-- Check character of the first seventeen characters of an identity card. -/
def idCheckChar (first17 : List Nat) : Nat :=
  idTable.getD (weightedSum (fun c => c - '0'.toNat) first17
    [7, 9, 10, 5, 8, 4, 2, 1, 6, 3, 7, 9, 10, 5, 8, 4, 2] % 11) 0

/-- The identity-card pattern: 18 characters, the first a digit `1`-`9`, the second to
seventeenth digits, the eighteenth a digit or `X`. -/
def matchesIDCardPattern (r : List Nat) : Prop :=
  r.length = 18 ∧ (∀ c ∈ r.take 1, isNonzeroDigit c = true) ∧
    (∀ c ∈ (r.take 17).drop 1, isDigit c = true) ∧
    ∀ c ∈ r.drop 17, (isDigit c || c == 'X'.toNat) = true

/-- A valid identity-card number: the pattern, and the eighteenth character is the check
character of the first seventeen. -/
def isValidIDCard (r : List Nat) : Prop :=
  matchesIDCardPattern r ∧ r[17]? = some (idCheckChar (r.take 17))

/-! ## Example texts -/

/-- The example credit code of the specification. -/
def specExampleCode : GoString := GoString.ofString "91310000MA1K3L6J9Q"

/-- The example credit code with both check characters recomputed. -/
def validExampleCode : GoString := GoString.ofString "91310000MA1K3L6J4Y"

/-- A credit code whose organization identifier is made of underscores. -/
def underscoreCode : GoString := GoString.ofString "91310000________0U"

/-- Seventeen zeros followed by their check character `1`. -/
def zeroIDCard : GoString := GoString.ofString "000000000000000001"

/-- An identity-card number with a correct check character. -/
def validIDCard : GoString := GoString.ofString "11010519491231002X"

/-! ## Definitions for the claims on accepted credit codes -/

/-- Rune of the 17th character `ValidateUSCI` requires after the organization body
`body`: the character of `stringCodes` at the remapped check index, read off under the
assumption, proved separately, that `genCheckCode` does not overflow. -/
def orgExpected (body : GoString) : Nat :=
  alphabet36.getD
    (remapOrg (11 - exactSum organizationCheckCodes body orgFactors % 11)).toNat 0

/-- Rune of the 18th character `ValidateUSCI` requires after the seventeen characters
`first17`, read off in the same way. -/
def usciExpected (first17 : GoString) : Nat :=
  alphabet31.getD
    (remapUsci (31 - exactSum socialCreditCheckCodes first17 usciFactors % 31)).toNat 0

/-- The letters the credit code does not use. -/
def excludedLetters : List Nat := runesOf "IOSVZ"

/-- Lowercase ASCII letter. -/
def isLower (c : Nat) : Bool :=
  decide ('a'.toNat ≤ c ∧ c ≤ 'z'.toNat)

/-- Five characters of three bytes each. -/
def fiveWideChars : GoString := GoString.ofString "中中中中中"

/-- Fifteen characters of three bytes each. -/
def fifteenWideChars : GoString := GoString.ofString "中中中中中中中中中中中中中中中"

/-- A credit code whose organization check value is 10. -/
def checkTenCode : GoString := GoString.ofString "9131000000000006XU"

/-- The same code with `Y` at the 17th position. -/
def checkTenCodeY : GoString := GoString.ofString "9131000000000006YU"

/-- An accepted credit code with lowercase letters. -/
def lowercaseCode : GoString := GoString.ofString "91310000abcdefgh0U"

/-- An accepted credit code with the letter `I`. -/
def letterICode : GoString := GoString.ofString "91310000IIIIIIII5B"

/-- The code `underscoreCode` with its 9th character changed to `a`. -/
def underscoreCodeA : GoString := GoString.ofString "91310000a_______0U"

/-! ## Definitions for the claims on identity cards -/

/-- The factors of `ValidateIDCard` as natural numbers. -/
def idFactorsNat : List Nat := [7, 9, 10, 5, 8, 4, 2, 1, 6, 3, 7, 9, 10, 5, 8, 4, 2]

/-- Value of a character of an identity card: the digit, and 10 for `X`. -/
def idValue (c : Nat) : Nat :=
  if c = 'X'.toNat then 10 else c - '0'.toNat

/-- The weights `2 ^ (17 - i)` of ISO 7064 MOD 11-2, for `i = 0..17`. -/
def isoWeights : List Nat :=
  (List.range 18).map fun i => 2 ^ (17 - i)

/-- The sum over `i = 0..17` of `2 ^ (17 - i) * a_i`, with `a_i` the value of the `i`-th
character. -/
def isoSum (r : List Nat) : Nat :=
  (List.zipWith (fun c g => g * idValue c) r isoWeights).sum

/-- An identity-card number with a correct check digit that is not `X`. -/
def validIDCardDigit : GoString := GoString.ofString "100000000000000005"

/-! ## Lemmas on UTF-8 decoding -/

theorem decodeRune_ascii (b : UInt8) (rest : GoString) (h : b.toNat < 128) :
    decodeRune (b :: rest) = (b.toNat, 1) := by
  simp [decodeRune, h]

theorem decodeRune_ge (b : UInt8) (rest : GoString) (h : 128 ≤ b.toNat) :
    128 ≤ (decodeRune (b :: rest)).1 := by
  have hb : b.toNat < 256 := UInt8.toNat_lt b
  unfold decodeRune
  simp only []
  split_ifs with h1 h2 h3 h4
  · omega
  · split
    · split_ifs
      · dsimp only; omega
      · simp [RuneError]
    · simp [RuneError]
  · split
    · rename_i b1 b2 _
      split_ifs with h5
      · simp only [Bool.and_eq_true, isSecond, isCont, decide_eq_true_eq, acceptRange] at h5
        dsimp only
        split_ifs at h5 <;> simp only [] at h5 <;> omega
      · simp [RuneError]
    · simp [RuneError]
  · split
    · rename_i b1 b2 b3 _
      split_ifs with h5
      · simp only [Bool.and_eq_true, isSecond, isCont, decide_eq_true_eq, acceptRange] at h5
        dsimp only
        split_ifs at h5 <;> simp only [] at h5 <;> omega
      · simp [RuneError]
    · simp [RuneError]
  · simp [RuneError]

theorem runesFuel_ascii : ∀ (n : Nat) (s : GoString), s.length ≤ n →
    (∀ b ∈ s, b.toNat < 128) → runesFuel n s = s.map UInt8.toNat := by
  intro n
  induction n with
  | zero =>
    intro s hs _
    have : s = [] := List.length_eq_zero.mp (by omega)
    subst this
    rfl
  | succ n ih =>
    intro s hs h
    cases s with
    | nil => rfl
    | cons b rest =>
      have hb : b.toNat < 128 := h b (List.mem_cons_self _ _)
      simp only [runesFuel, decodeRune_ascii b rest hb, List.drop_succ_cons, List.drop_zero,
        List.map_cons]
      rw [ih rest (by simpa using hs) (fun x hx => h x (List.mem_cons_of_mem _ hx))]

theorem ascii_of_runesFuel : ∀ (n : Nat) (s : GoString), s.length ≤ n →
    (∀ r ∈ runesFuel n s, r < 128) → ∀ b ∈ s, b.toNat < 128 := by
  intro n
  induction n with
  | zero =>
    intro s hs _
    have : s = [] := List.length_eq_zero.mp (by omega)
    subst this
    simp
  | succ n ih =>
    intro s hs h
    cases s with
    | nil => simp
    | cons b rest =>
      simp only [runesFuel, List.mem_cons, forall_eq_or_imp] at h
      have hb : b.toNat < 128 := by
        by_contra hcon
        have := decodeRune_ge b rest (by omega)
        have := h.1
        omega
      rw [decodeRune_ascii b rest hb] at h
      simp only [List.drop_succ_cons, List.drop_zero] at h
      intro x hx
      rcases List.mem_cons.mp hx with rfl | hx
      · exact hb
      · exact ih rest (by simpa using hs) h.2 x hx

theorem runes_eq_map (s : GoString) (h : ∀ b ∈ s, b.toNat < 128) :
    runes s = s.map UInt8.toNat :=
  runesFuel_ascii s.length s (Nat.le_refl _) h

theorem ascii_of_runes (s : GoString) (h : ∀ r ∈ runes s, r < 128) :
    ∀ b ∈ s, b.toNat < 128 :=
  ascii_of_runesFuel s.length s (Nat.le_refl _) h

theorem runes_eq_map_of_runes (s : GoString) (h : ∀ r ∈ runes s, r < 128) :
    runes s = s.map UInt8.toNat :=
  runes_eq_map s (ascii_of_runes s h)

theorem decodeRune_width (b : UInt8) (rest : GoString) :
    1 ≤ (decodeRune (b :: rest)).2 := by
  unfold decodeRune
  simp only []
  split_ifs
  · exact Nat.le_refl _
  · split
    · split_ifs <;> simp
    · simp
  · split
    · split_ifs <;> simp
    · simp
  · split
    · split_ifs <;> simp
    · simp
  · simp

theorem runesFuel_nil (n : Nat) : runesFuel n [] = [] := by
  cases n <;> rfl

/-- The number of bytes is enough fuel: more fuel decodes the same runes. -/
theorem runesFuel_stable : ∀ (n m : Nat) (s : GoString), s.length ≤ n → s.length ≤ m →
    runesFuel n s = runesFuel m s := by
  intro n
  induction n with
  | zero =>
    intro m s hn _
    have : s = [] := List.length_eq_zero.mp (by omega)
    subst this
    rw [runesFuel_nil, runesFuel_nil]
  | succ n ih =>
    intro m s hn hm
    cases s with
    | nil => rw [runesFuel_nil, runesFuel_nil]
    | cons b rest =>
      cases m with
      | zero => simp at hm
      | succ m =>
        have hw := decodeRune_width b rest
        have hlen : ((b :: rest).drop (decodeRune (b :: rest)).2).length ≤ rest.length := by
          simp only [List.length_drop, List.length_cons]
          omega
        simp only [List.length_cons] at hn hm
        simp only [runesFuel]
        rw [ih m _ (by omega) (by omega)]

theorem runes_fuel (s : GoString) (n : Nat) (h : s.length ≤ n) : runesFuel n s = runes s :=
  runesFuel_stable n s.length s h (Nat.le_refl _)

/-! ## Lemmas on the regular-expression matcher -/

theorem mem_run_chr (c : Char) (s u : List Nat) :
    u ∈ (Regex.chr c).run s ↔ s = c.toNat :: u := by
  cases s with
  | nil => simp [Regex.run]
  | cons x t =>
    simp only [Regex.run]
    split_ifs with h
    · simp [h, eq_comm]
    · simp [h]

theorem mem_run_cls (rs : List (Char × Char)) (s u : List Nat) :
    u ∈ (Regex.cls rs).run s ↔ ∃ x, s = x :: u ∧ inClass rs x = true := by
  cases s with
  | nil => simp [Regex.run]
  | cons x t =>
    simp only [Regex.run]
    split_ifs with h
    · simp only [List.mem_singleton, List.cons.injEq]
      constructor
      · rintro rfl
        exact ⟨x, ⟨rfl, rfl⟩, h⟩
      · rintro ⟨y, ⟨rfl, rfl⟩, _⟩
        rfl
    · simp only [List.not_mem_nil, List.cons.injEq, false_iff, not_exists, not_and]
      rintro y ⟨rfl, rfl⟩
      exact h

theorem mem_run_cat (a b : Regex) (s u : List Nat) :
    u ∈ (Regex.cat a b).run s ↔ ∃ v, v ∈ a.run s ∧ u ∈ b.run v := by
  simp [Regex.run, List.mem_flatMap]

theorem mem_run_alt (a b : Regex) (s u : List Nat) :
    u ∈ (Regex.alt a b).run s ↔ u ∈ a.run s ∨ u ∈ b.run s := by
  simp [Regex.run]

theorem mem_iter_cls (rs : List (Char × Char)) : ∀ (n : Nat) (s u : List Nat),
    u ∈ iter (Regex.cls rs).run n s ↔
      ∃ p, s = p ++ u ∧ p.length = n ∧ ∀ x ∈ p, inClass rs x = true := by
  intro n
  induction n with
  | zero =>
    intro s u
    simp only [iter, List.mem_singleton, List.length_eq_zero]
    constructor
    · rintro rfl
      exact ⟨[], rfl, rfl, by simp⟩
    · rintro ⟨p, rfl, rfl, _⟩
      rfl
  | succ n ih =>
    intro s u
    simp only [iter, List.mem_flatMap, mem_run_cls, ih]
    constructor
    · rintro ⟨v, ⟨x, rfl, hx⟩, p, rfl, hp, hall⟩
      refine ⟨x :: p, rfl, by simp [hp], ?_⟩
      intro y hy
      rcases List.mem_cons.mp hy with rfl | hy
      · exact hx
      · exact hall y hy
    · rintro ⟨p, rfl, hp, hall⟩
      cases p with
      | nil => simp at hp
      | cons x p =>
        refine ⟨p ++ u, ⟨x, rfl, hall x (List.mem_cons_self _ _)⟩, p, rfl, by simpa using hp, ?_⟩
        intro y hy
        exact hall y (List.mem_cons_of_mem _ hy)

theorem mem_run_rep_cls (rs : List (Char × Char)) (n : Nat) (s u : List Nat) :
    u ∈ (Regex.rep (Regex.cls rs) n).run s ↔
      ∃ p, s = p ++ u ∧ p.length = n ∧ ∀ x ∈ p, inClass rs x = true := by
  simp only [Regex.run]
  exact mem_iter_cls rs n s u

theorem mem_iterPlus_cls (rs : List (Char × Char)) : ∀ (fuel : Nat) (s u : List Nat),
    u ∈ iterPlus (Regex.cls rs).run fuel s ↔
      ∃ p, s = p ++ u ∧ 1 ≤ p.length ∧ p.length ≤ fuel + 1 ∧
        ∀ x ∈ p, inClass rs x = true := by
  intro fuel
  induction fuel with
  | zero =>
    intro s u
    simp only [iterPlus, mem_run_cls]
    constructor
    · rintro ⟨x, rfl, hx⟩
      exact ⟨[x], rfl, by simp, by simp, by simpa using hx⟩
    · rintro ⟨p, rfl, h1, h2, hall⟩
      match p, h1, h2, hall with
      | [x], _, _, hall => exact ⟨x, rfl, hall x (List.mem_singleton_self _)⟩
      | [], h1, _, _ => simp at h1
      | _ :: _ :: _, _, h2, _ => simp at h2
  | succ n ih =>
    intro s u
    simp only [iterPlus, List.mem_append, List.mem_flatMap, mem_run_cls, ih]
    constructor
    · rintro (⟨x, rfl, hx⟩ | ⟨v, ⟨x, rfl, hx⟩, p, rfl, h1, h2, hall⟩)
      · exact ⟨[x], rfl, by simp, by simp, by simpa using hx⟩
      · refine ⟨x :: p, rfl, by simp, by simp; omega, ?_⟩
        intro y hy
        rcases List.mem_cons.mp hy with rfl | hy
        · exact hx
        · exact hall y hy
    · rintro ⟨p, rfl, h1, h2, hall⟩
      match p, h1, h2, hall with
      | [], h1, _, _ => simp at h1
      | [x], _, _, hall => exact Or.inl ⟨x, rfl, hall x (List.mem_singleton_self _)⟩
      | x :: y :: p, _, h2, hall =>
        refine Or.inr ⟨(y :: p) ++ u, ⟨x, rfl, hall x (List.mem_cons_self _ _)⟩, y :: p, rfl,
          by simp, by simp at h2 ⊢; omega, ?_⟩
        intro z hz
        exact hall z (List.mem_cons_of_mem _ hz)

theorem mem_run_plus_cls (rs : List (Char × Char)) (s u : List Nat) :
    u ∈ (Regex.plus (Regex.cls rs)).run s ↔
      ∃ p, s = p ++ u ∧ p ≠ [] ∧ ∀ x ∈ p, inClass rs x = true := by
  simp only [Regex.run, mem_iterPlus_cls]
  constructor
  · rintro ⟨p, rfl, h1, _, hall⟩
    refine ⟨p, rfl, ?_, hall⟩
    rintro rfl
    simp at h1
  · rintro ⟨p, rfl, hne, hall⟩
    refine ⟨p, rfl, ?_, by simp; omega, hall⟩
    cases p with
    | nil => exact absurd rfl hne
    | cons _ _ => simp

theorem matchString_iff (body : Regex) (s : GoString) :
    matchString body s = true ↔ [] ∈ body.run (runes s) := by
  simp only [matchString, List.any_eq_true, List.isEmpty_iff]
  constructor
  · rintro ⟨x, hx, rfl⟩
    exact hx
  · intro h
    exact ⟨[], h, rfl⟩

/-! ## Texts of ASCII characters -/

theorem runes_of_bound (s : GoString) (r : List Nat) (hr : runes s = r)
    (h : ∀ c ∈ r, c < 128) : s.map UInt8.toNat = r ∧ s.length = r.length := by
  subst hr
  have := runes_eq_map_of_runes s h
  refine ⟨this.symm, ?_⟩
  rw [this, List.length_map]

theorem inClass_digit (x : Nat) : inClass [('0', '9')] x = isDigit x := by
  simp [inClass, isDigit]

theorem isDigit_lt (x : Nat) (h : isDigit x = true) : x < 128 := by
  simp [isDigit] at h
  omega

/-! ## Phone numbers -/

theorem phonePattern_run (r : List Nat) : [] ∈ phonePattern.run r ↔ isPhoneNumber r := by
  simp only [phonePattern, reDigit, mem_run_cat, mem_run_chr, mem_run_rep_cls, inClass_digit,
    List.append_nil, isPhoneNumber]
  constructor
  · rintro ⟨v, rfl, p, rfl, hp, hall⟩
    refine ⟨by simp [hp], rfl, ?_⟩
    intro c hc
    rcases List.mem_cons.mp hc with rfl | hc
    · decide
    · exact hall c hc
  · rintro ⟨hlen, hhead, hall⟩
    cases r with
    | nil => simp at hlen
    | cons x t =>
      simp only [List.head?_cons, Option.some.injEq] at hhead
      subst hhead
      exact ⟨t, rfl, t, rfl, by simpa using hlen, fun c hc => hall c (List.mem_cons_of_mem _ hc)⟩

theorem isPhoneNumber_bound (r : List Nat) (h : isPhoneNumber r) : ∀ c ∈ r, c < 128 :=
  fun c hc => isDigit_lt c (h.2.2 c hc)

theorem ValidatePhone_iff (s : GoString) : ValidatePhone s = true ↔ isPhoneNumber (runes s) := by
  rw [ValidatePhone, matchString_iff, phonePattern_run]

/-! ## Building codes -/

theorem inClass_nonzero (x : Nat) : inClass [('1', '9')] x = isNonzeroDigit x := by
  simp [inClass, isNonzeroDigit]

theorem inClass_digitT (x : Nat) :
    inClass [('0', '9'), ('T', 'T')] x = (isDigit x || x == 'T'.toNat) := by
  simp only [inClass, isDigit, List.any_cons, List.any_nil, Bool.or_false]
  congr 1
  rw [Bool.eq_iff_iff]
  simp only [decide_eq_true_eq, beq_iff_eq]
  omega

theorem buildingPattern_run (r : List Nat) :
    [] ∈ buildingPattern.run r ↔
      2 ≤ r.length ∧ isNonzeroDigit (r.headD 0) = true ∧
        ∀ c ∈ r.tail, (isDigit c || c == 'T'.toNat) = true := by
  simp only [buildingPattern, mem_run_cat, mem_run_cls, mem_run_plus_cls, inClass_nonzero,
    inClass_digitT, List.append_nil]
  constructor
  · rintro ⟨v, ⟨x, rfl, hx⟩, p, rfl, hne, hall⟩
    refine ⟨?_, by simpa using hx, by simpa using hall⟩
    cases v with
    | nil => exact absurd rfl hne
    | cons _ _ => simp
  · rintro ⟨hlen, hhead, hall⟩
    match r, hlen, hhead, hall with
    | x :: y :: t, _, hhead, hall =>
      exact ⟨y :: t, ⟨x, rfl, by simpa using hhead⟩, y :: t, rfl, by simp, by simpa using hall⟩

theorem stringsCount_eq (s : GoString) (c : Char) :
    stringsCount s c = (s.map UInt8.toNat).count c.toNat := by
  induction s with
  | nil => rfl
  | cons b t ih =>
    simp only [stringsCount, List.filter_cons, List.map_cons, List.count_cons] at ih ⊢
    by_cases h : b.toNat = c.toNat
    · simp [h, ih]
    · simp [h, ih]

theorem contains_19_25 (n : Nat) : [19, 25].contains n = true ↔ n = 19 ∨ n = 25 := by
  by_cases h19 : n = 19
  · simp [h19]
  · by_cases h25 : n = 25
    · simp [h25]
    · simp [h19, h25]

theorem isBuildingCode_bound (r : List Nat) (h : isBuildingCode r) : ∀ c ∈ r, c < 128 := by
  obtain ⟨hlen, _, hhead, hall⟩ := h
  cases r with
  | nil => simp at hlen
  | cons x t =>
    intro c hc
    rcases List.mem_cons.mp hc with rfl | hc
    · simp [isNonzeroDigit] at hhead
      omega
    · have := hall c (by simpa using hc)
      simp [isDigit] at this
      omega

theorem ValidateBuidlingCode_iff (s : GoString) :
    ValidateBuidlingCode s = true ↔ isBuildingCode (runes s) := by
  constructor
  · intro h
    simp only [ValidateBuidlingCode] at h
    split_ifs at h with h1 h2
    rw [matchString_iff, buildingPattern_run] at h
    have hb : ∀ c ∈ runes s, c < 128 := by
      obtain ⟨hlen, hhead, hall⟩ := h
      intro c hc
      cases hr : runes s with
      | nil => simp [hr] at hlen
      | cons x t =>
        rw [hr] at hc hhead hall
        rcases List.mem_cons.mp hc with rfl | hc
        · simp [isNonzeroDigit] at hhead
          omega
        · have := hall c (by simpa using hc)
          simp [isDigit] at this
          omega
    obtain ⟨hmap, hl⟩ := runes_of_bound s (runes s) rfl hb
    refine ⟨?_, ?_, h.2.1, h.2.2⟩
    · rw [← hl]
      apply (contains_19_25 _).mp
      cases hc : [19, 25].contains s.length with
      | true => rfl
      | false => exact absurd (by rw [hc]; rfl) h1
    · rw [← hmap, ← stringsCount_eq]
      omega
  · intro h
    obtain ⟨hmap, hl⟩ := runes_of_bound s (runes s) rfl (isBuildingCode_bound _ h)
    obtain ⟨hlen, hcount, hhead, hall⟩ := h
    have h1 : ([19, 25].contains s.length) = true := by
      rw [hl]
      exact (contains_19_25 _).mpr hlen
    have h2 : ¬ stringsCount s 'T' > 1 := by
      rw [stringsCount_eq, hmap]
      omega
    simp only [ValidateBuidlingCode, h1, h2, Bool.not_true, Bool.false_eq_true, if_false]
    rw [matchString_iff, buildingPattern_run]
    exact ⟨by omega, hhead, hall⟩

/-! ## The credit-code pattern -/

theorem mem_run_rep_cls_iff (rs : List (Char × Char)) (n : Nat) (s u : List Nat) :
    u ∈ (Regex.rep (Regex.cls rs) n).run s ↔
      n ≤ s.length ∧ (∀ x ∈ s.take n, inClass rs x = true) ∧ u = s.drop n := by
  rw [mem_run_rep_cls]
  constructor
  · rintro ⟨p, rfl, hp, hall⟩
    refine ⟨by simp [hp], ?_, ?_⟩
    · rw [List.take_left' hp]
      exact hall
    · rw [List.drop_left' hp]
  · rintro ⟨hn, hall, rfl⟩
    exact ⟨s.take n, (List.take_append_drop n s).symm, by simp [hn], hall⟩

theorem inClass_word (x : Nat) :
    inClass [('0', '9'), ('A', 'Z'), ('_', '_'), ('a', 'z')] x = isWordChar x := by
  simp only [inClass, isWordChar, isAlnum, isDigit, List.any_cons, List.any_nil, Bool.or_false]
  rw [Bool.eq_iff_iff]
  simp only [Bool.or_eq_true, decide_eq_true_eq, beq_iff_eq]
  have e1 : '_'.toNat = 95 := by decide
  rw [e1]
  omega

theorem usciPrefixes_eq : usciPrefixes =
    [[49, 49], [49, 50], [49, 51], [49, 57], [53, 49], [53, 50], [53, 51], [53, 57],
     [57, 49], [57, 50], [57, 51], [89, 49]] := by
  decide

theorem usciPrefixPattern_run (r v : List Nat) :
    v ∈ usciPrefixPattern.run r ↔ ∃ p ∈ usciPrefixes, r = p ++ v := by
  simp only [usciPrefixPattern, reLit2, mem_run_alt, mem_run_cat, mem_run_chr, usciPrefixes_eq]
  constructor
  · intro h
    rcases h with h | h | h | h | h | h | h | h | h | h | h | h <;>
      obtain ⟨w, rfl, rfl⟩ := h <;> simp
  · rintro ⟨p, hp, rfl⟩
    simp only [List.mem_cons, List.mem_singleton, List.not_mem_nil, or_false] at hp
    rcases hp with h | h | h | h | h | h | h | h | h | h | h | h <;> subst h <;> simp

theorem usciPrefixes_length (p : List Nat) (h : p ∈ usciPrefixes) : p.length = 2 := by
  simp only [usciPrefixes_eq, List.mem_cons, List.mem_singleton, List.not_mem_nil,
    or_false] at h
  rcases h with h | h | h | h | h | h | h | h | h | h | h | h <;> subst h <;> rfl

theorem usciPrefixPattern_run_iff (r v : List Nat) :
    v ∈ usciPrefixPattern.run r ↔ r.take 2 ∈ usciPrefixes ∧ v = r.drop 2 := by
  rw [usciPrefixPattern_run]
  constructor
  · rintro ⟨p, hp, rfl⟩
    have h2 := usciPrefixes_length p hp
    rw [List.take_left' h2, List.drop_left' h2]
    exact ⟨hp, rfl⟩
  · rintro ⟨hp, rfl⟩
    exact ⟨r.take 2, hp, (List.take_append_drop 2 r).symm⟩

theorem usciPattern_run (r : List Nat) :
    [] ∈ usciPattern.run r ↔ matchesUSCIPattern isWordChar r := by
  simp only [usciPattern, reDigit, reWord, mem_run_cat, mem_run_rep_cls_iff, mem_run_cls,
    usciPrefixPattern_run_iff, inClass_digit, inClass_word, matchesUSCIPattern]
  constructor
  · rintro ⟨v3, ⟨v2, ⟨v1, ⟨hp, rfl⟩, h6, hd, rfl⟩, h9, hw, rfl⟩, x, hx, hxw⟩
    rw [List.drop_drop] at h9 hw hx
    rw [List.drop_drop] at hx
    simp only [List.length_drop] at h6 h9
    have hlen : r.length = 18 := by
      have := congrArg List.length hx
      simp only [List.length_drop, List.length_cons, List.length_nil] at this
      omega
    refine ⟨hlen, hp, hd, ?_⟩
    intro c hc
    rw [← List.take_append_drop 9 (List.drop (2 + 6) r), List.drop_drop, hx] at hc
    rcases List.mem_append.mp hc with hc | hc
    · exact hw c hc
    · rw [List.mem_singleton.mp hc]
      exact hxw
  · rintro ⟨hlen, hp, hd, hw⟩
    have hne : r.drop 17 ≠ [] := by
      intro h
      have := congrArg List.length h
      simp [hlen] at this
    obtain ⟨x, hx⟩ : ∃ x, r.drop 17 = [x] := by
      have h1 : (r.drop 17).length = 1 := by simp [hlen]
      match hr : r.drop 17, h1 with
      | [x], _ => exact ⟨x, rfl⟩
    refine ⟨r.drop 17, ⟨r.drop 8, ⟨r.drop 2, ⟨hp, rfl⟩, by simp [hlen], hd, by
      rw [List.drop_drop]⟩, by simp [hlen], ?_, by rw [List.drop_drop]⟩, x, hx, ?_⟩
    · intro c hc
      exact hw c (List.mem_of_mem_take hc)
    · apply hw
      have : x ∈ r.drop 17 := by simp [hx]
      have h17 : r.drop 17 = (r.drop 8).drop 9 := by rw [List.drop_drop]
      rw [h17] at this
      exact List.mem_of_mem_drop this

/-! ## Integer arithmetic and `strconv` -/

theorem ofNat_toNat_byte (b : UInt8) : UInt8.ofNat b.toNat = b := by
  apply UInt8.ext
  simp [UInt8.ofNat, UInt8.toNat]

theorem wrap64_of_inInt64 (x : Int) (h : inInt64 x) : wrap64 x = x := by
  unfold inInt64 at h
  unfold wrap64
  omega

theorem inInt64_wrap64 (x : Int) : inInt64 (wrap64 x) := by
  unfold inInt64 wrap64
  omega

theorem wrap64_add_wrap64 (a b : Int) : wrap64 (a + wrap64 b) = wrap64 (a + b) := by
  unfold wrap64
  omega

theorem wrap64_step (v a b : Int) :
    wrap64 (wrap64 (v + wrap64 a) + b) = wrap64 (v + (a + b)) := by
  unfold wrap64
  omega

set_option maxRecDepth 100000 in
theorem parseInt_byte_fin : ∀ n : Fin 256, parseInt (byteToString (UInt8.ofNat n.val)) =
    if isDigit n.val then some ((n.val : Int) - 48) else none := by
  decide

theorem parseInt_byte (b : UInt8) : parseInt (byteToString b) =
    if isDigit b.toNat then some ((b.toNat : Int) - 48) else none := by
  have := parseInt_byte_fin ⟨b.toNat, UInt8.toNat_lt b⟩
  simpa [ofNat_toNat_byte] using this

theorem genCheckCodeLoop_step (factors : List Int) (checkCodes : List (String × Int))
    (b : UInt8) (rest : GoString) (i : Nat) (value f : Int) (hf : factors[i]? = some f) :
    genCheckCodeLoop factors checkCodes (b :: rest) i value =
      genCheckCodeLoop factors checkCodes rest (i + 1)
        (wrap64 (value + wrap64 (charWeight checkCodes b * f))) := by
  simp only [genCheckCodeLoop, hf, parseInt_byte, charWeight]
  by_cases hd : isDigit b.toNat = true
  · simp [hd]
  · simp [hd]

theorem genCheckCodeLoop_eq (factors : List Int) (checkCodes : List (String × Int)) :
    ∀ (code : GoString) (i : Nat) (value : Int), i + code.length ≤ factors.length →
      inInt64 value →
      genCheckCodeLoop factors checkCodes code i value =
        some (wrap64 (value + exactSum checkCodes code (factors.drop i))) := by
  intro code
  induction code with
  | nil =>
    intro i value _ hv
    simp [genCheckCodeLoop, exactSum, wrap64_of_inInt64 value hv]
  | cons b rest ih =>
    intro i value hlen hv
    have hi : i < factors.length := by
      simp only [List.length_cons] at hlen
      omega
    have hf : factors[i]? = some factors[i] := List.getElem?_eq_getElem hi
    rw [genCheckCodeLoop_step factors checkCodes b rest i value _ hf,
      ih (i + 1) _ (by simp only [List.length_cons] at hlen; omega) (inInt64_wrap64 _)]
    have hdrop : factors.drop i = factors[i] :: factors.drop (i + 1) :=
      List.drop_eq_getElem_cons hi
    rw [hdrop]
    simp only [exactSum, List.zipWith_cons_cons, List.sum_cons]
    rw [wrap64_step]

/-! ## The checksum helper -/

theorem genCheckCode_eq (code : GoString) (factors : List Int) (mode : Int)
    (checkCodes : List (String × Int)) (hlen : code.length ≤ factors.length) (hm : mode ≠ 0) :
    genCheckCode code factors mode checkCodes =
      some (wrap64 (mode - Int.tmod (wrap64 (exactSum checkCodes code factors)) mode)) := by
  have h := genCheckCodeLoop_eq factors checkCodes code 0 0 (by simpa using hlen)
    (by unfold inInt64; omega)
  simp only [List.drop_zero, Int.zero_add] at h
  simp [genCheckCode, h, hm]

theorem genCheckCode_of_nonneg (code : GoString) (factors : List Int) (mode : Int)
    (checkCodes : List (String × Int)) (hlen : code.length ≤ factors.length)
    (hm : 0 < mode) (hm2 : mode < 2 ^ 63)
    (h0 : 0 ≤ exactSum checkCodes code factors) (h1 : exactSum checkCodes code factors < 2 ^ 63) :
    genCheckCode code factors mode checkCodes =
      some (mode - exactSum checkCodes code factors % mode) ∧
    1 ≤ mode - exactSum checkCodes code factors % mode ∧
    mode - exactSum checkCodes code factors % mode ≤ mode := by
  have hw : wrap64 (exactSum checkCodes code factors) = exactSum checkCodes code factors :=
    wrap64_of_inInt64 _ ⟨by omega, h1⟩
  have ht : Int.tmod (exactSum checkCodes code factors) mode =
      exactSum checkCodes code factors % mode := Int.tmod_eq_emod h0 (by omega)
  have hlo : 0 ≤ exactSum checkCodes code factors % mode := Int.emod_nonneg _ (by omega)
  have hhi : exactSum checkCodes code factors % mode < mode := Int.emod_lt_of_pos _ hm
  rw [genCheckCode_eq code factors mode checkCodes hlen (by omega), hw, ht,
    wrap64_of_inInt64 _ ⟨by omega, by omega⟩]
  exact ⟨rfl, by omega, by omega⟩

theorem exactSum_bounds (checkCodes : List (String × Int)) (W : Int)
    (hW : ∀ b, 0 ≤ charWeight checkCodes b ∧ charWeight checkCodes b ≤ W) :
    ∀ (code : GoString) (factors : List Int), (∀ f ∈ factors, 0 ≤ f) →
      0 ≤ exactSum checkCodes code factors ∧
        exactSum checkCodes code factors ≤ W * factors.sum := by
  intro code
  induction code with
  | nil =>
    intro factors hf
    have h0 : 0 ≤ W := le_trans (hW 0).1 (hW 0).2
    have : 0 ≤ factors.sum := List.sum_nonneg hf
    simp only [exactSum, List.zipWith_nil_left, List.sum_nil]
    exact ⟨le_refl _, mul_nonneg h0 this⟩
  | cons b rest ih =>
    intro factors hf
    cases factors with
    | nil => simp [exactSum]
    | cons f fs =>
      have hf0 : 0 ≤ f := hf f (List.mem_cons_self _ _)
      have ih' := ih fs (fun x hx => hf x (List.mem_cons_of_mem _ hx))
      simp only [exactSum, List.zipWith_cons_cons, List.sum_cons] at ih' ⊢
      have hb := hW b
      constructor
      · have := mul_nonneg hb.1 hf0
        omega
      · have := mul_le_mul_of_nonneg_right hb.2 hf0
        rw [mul_add]
        omega

theorem mapGet_bounds (W : Int) (h0 : 0 ≤ W) : ∀ (m : List (String × Int)),
    (∀ p ∈ m, 0 ≤ p.2 ∧ p.2 ≤ W) → ∀ k, 0 ≤ mapGet m k ∧ mapGet m k ≤ W := by
  intro m
  induction m with
  | nil =>
    intro _ k
    simp [mapGet, List.lookup, h0]
  | cons p m ih =>
    intro h k
    obtain ⟨a, v⟩ := p
    have ih' := ih (fun q hq => h q (List.mem_cons_of_mem _ hq)) k
    simp only [mapGet, List.lookup] at ih' ⊢
    cases hk : (k == a) with
    | true => simpa using h (a, v) (List.mem_cons_self _ _)
    | false => simpa using ih'

theorem charWeight_bounds (m : List (String × Int)) (W : Int) (h9 : 9 ≤ W)
    (h : ∀ p ∈ m, 0 ≤ p.2 ∧ p.2 ≤ W) (b : UInt8) :
    0 ≤ charWeight m b ∧ charWeight m b ≤ W := by
  unfold charWeight
  split_ifs with hd
  · simp only [isDigit, decide_eq_true_eq] at hd
    have e0 : '0'.toNat = 48 := by decide
    have e9 : '9'.toNat = 57 := by decide
    rw [e0, e9] at hd
    rw [e0]
    omega
  · exact mapGet_bounds W (by omega) m h _

theorem charWeight_org_bounds (b : UInt8) :
    0 ≤ charWeight organizationCheckCodes b ∧ charWeight organizationCheckCodes b ≤ 35 :=
  charWeight_bounds _ 35 (by omega) (by decide) b

theorem charWeight_usci_bounds (b : UInt8) :
    0 ≤ charWeight socialCreditCheckCodes b ∧ charWeight socialCreditCheckCodes b ≤ 30 :=
  charWeight_bounds _ 30 (by omega) (by decide) b

set_option maxRecDepth 100000 in
theorem charWeight_alphabet_list : ∀ c ∈ alphabet31,
    charWeight organizationCheckCodes (UInt8.ofNat c) = (w36 c : Int) ∧
      charWeight socialCreditCheckCodes (UInt8.ofNat c) = (w31 c : Int) := by
  decide

theorem charWeight_alphabet (b : UInt8) (h : b.toNat ∈ alphabet31) :
    charWeight organizationCheckCodes b = (w36 b.toNat : Int) ∧
      charWeight socialCreditCheckCodes b = (w31 b.toNat : Int) := by
  have := charWeight_alphabet_list b.toNat h
  simpa [ofNat_toNat_byte] using this

/-! ## Unfolding `ValidateUSCI` -/

theorem stringCodes36_map : stringCodes36.map UInt8.toNat = alphabet36 := by
  decide

theorem stringCodes31_map : stringCodes31.map UInt8.toNat = alphabet31 := by
  decide

theorem index_of_map {l : GoString} {a : List Nat} (h : l.map UInt8.toNat = a) (k : Int)
    (h0 : 0 ≤ k) (h1 : k.toNat < a.length) :
    ∃ e, index l k = some e ∧ e.toNat = a.getD k.toNat 0 := by
  subst h
  rw [List.length_map] at h1
  refine ⟨l[k.toNat], ?_, ?_⟩
  · simp [index, Int.not_lt.mpr h0, List.getElem?_eq_getElem h1]
  · simp [List.getD, List.getElem?_eq_getElem h1]

theorem orgSum_bounds (body : GoString) :
    0 ≤ exactSum organizationCheckCodes body orgFactors ∧
      exactSum organizationCheckCodes body orgFactors < 2 ^ 63 := by
  have h := exactSum_bounds organizationCheckCodes 35 charWeight_org_bounds body orgFactors
    (by decide)
  have hs : orgFactors.sum = 48 := by decide
  rw [hs] at h
  exact ⟨h.1, by omega⟩

theorem usciSum_bounds (body : GoString) :
    0 ≤ exactSum socialCreditCheckCodes body usciFactors ∧
      exactSum socialCreditCheckCodes body usciFactors < 2 ^ 63 := by
  have h := exactSum_bounds socialCreditCheckCodes 30 charWeight_usci_bounds body usciFactors
    (by decide)
  have hs : usciFactors.sum = 305 := by decide
  rw [hs] at h
  exact ⟨h.1, by omega⟩

/-- Check index of the organization code, after the first `switch`. -/
theorem orgIndex_spec (body : GoString) (hlen : body.length ≤ 8) :
    ∃ c, genCheckCode body orgFactors 11 organizationCheckCodes = some c ∧
      c = 11 - exactSum organizationCheckCodes body orgFactors % 11 ∧
      0 ≤ remapOrg c ∧ (remapOrg c).toNat < 36 := by
  obtain ⟨h0, h1⟩ := orgSum_bounds body
  obtain ⟨hg, hlo, hhi⟩ := genCheckCode_of_nonneg body orgFactors 11 organizationCheckCodes
    (by simpa [orgFactors] using hlen) (by omega) (by omega) h0 h1
  refine ⟨_, hg, rfl, ?_⟩
  unfold remapOrg
  split_ifs <;> omega

/-- Check index of the credit code, after the second `switch`. -/
theorem usciIndex_spec (body : GoString) (hlen : body.length ≤ 17) :
    ∃ c, genCheckCode body usciFactors 31 socialCreditCheckCodes = some c ∧
      c = 31 - exactSum socialCreditCheckCodes body usciFactors % 31 ∧
      0 ≤ remapUsci c ∧ (remapUsci c).toNat < 31 := by
  obtain ⟨h0, h1⟩ := usciSum_bounds body
  obtain ⟨hg, hlo, hhi⟩ := genCheckCode_of_nonneg body usciFactors 31 socialCreditCheckCodes
    (by simpa [usciFactors] using hlen) (by omega) (by omega) h0 h1
  refine ⟨_, hg, rfl, ?_⟩
  unfold remapUsci
  split_ifs <;> omega

theorem ValidateUSCI_of_match (code : GoString) (hlen : code.length = 18)
    (hm : matchString usciPattern code = true) :
    ∃ e1 e2 b16 b17, code[16]? = some b16 ∧ code[17]? = some b17 ∧
      e1.toNat = alphabet36.getD (remapOrg (11 -
        exactSum organizationCheckCodes ((code.drop 8).take 8) orgFactors % 11)).toNat 0 ∧
      e2.toNat = alphabet31.getD (remapUsci (31 -
        exactSum socialCreditCheckCodes (code.take 17) usciFactors % 31)).toNat 0 ∧
      ValidateUSCI code = some (e1 == b16 && e2 == b17) := by
  have hbody : (((code.take 17).drop 8).take 8) = (code.drop 8).take 8 := by
    rw [List.drop_take, List.take_take]
    rfl
  obtain ⟨c1, hg1, hc1, h10, h11⟩ := orgIndex_spec ((code.drop 8).take 8)
    (by simp [hlen])
  obtain ⟨c2, hg2, hc2, h20, h21⟩ := usciIndex_spec (code.take 17) (by simp [hlen])
  obtain ⟨e1, he1, he1'⟩ := index_of_map stringCodes36_map (remapOrg c1) h10
    (by simpa [alphabet36, runesOf] using h11)
  obtain ⟨e2, he2, he2'⟩ := index_of_map stringCodes31_map (remapUsci c2) h20
    (by simpa [alphabet31, runesOf] using h21)
  have h16 : code[16]? = some code[16] := List.getElem?_eq_getElem (by omega)
  have h17 : code[17]? = some code[17] := List.getElem?_eq_getElem (by omega)
  refine ⟨e1, e2, code[16], code[17], h16, h17, ?_, ?_, ?_⟩
  · rw [he1', hc1]
  · rw [he2', hc2]
  · have hs1 : slice code 8 17 = some ((code.take 17).drop 8) := by simp [slice, hlen]
    have hs2 : slice ((code.take 17).drop 8) 0 8 = some ((code.drop 8).take 8) := by
      simp [slice, hlen, ← hbody]
    have hs3 : slice code 0 17 = some (code.take 17) := by simp [slice, hlen]
    have hi1 : index ((code.take 17).drop 8) 8 = some code[16] := by
      simp [index, List.getElem?_drop, List.getElem?_take, h16]
    have hi2 : index code 17 = some code[17] := by
      simp [index, h17]
    simp only [ValidateUSCI, hlen, hm, hs1]
    simp only [Nat.reduceEqDiff, if_false, Bool.not_true, Bool.false_eq_true, Option.bind_eq_bind,
      Option.some_bind, Option.pure_def, bind_pure_comp, Option.map_eq_map, Option.map_some',
      hs2, hs3, hg1, hg2, he1, he2, hi1, hi2]
    by_cases h : e1 = code[16]
    · simp [h]
    · simp [h]

/-! ## Characterisation of `ValidateUSCI` -/

theorem isWordChar_lt (c : Nat) (h : isWordChar c = true) : c < 128 := by
  simp only [isWordChar, isAlnum, isDigit, Bool.or_eq_true, decide_eq_true_eq, beq_iff_eq] at h
  have e1 : 'z'.toNat = 122 := by decide
  have e2 : 'Z'.toNat = 90 := by decide
  have e3 : '9'.toNat = 57 := by decide
  have e4 : '_'.toNat = 95 := by decide
  omega

theorem isAlnum_isWordChar (c : Nat) (h : isAlnum c = true) : isWordChar c = true := by
  simp [isWordChar, h]

theorem usciPrefixes_lt (p : List Nat) (h : p ∈ usciPrefixes) : ∀ c ∈ p, c < 128 := by
  simp only [usciPrefixes_eq, List.mem_cons, List.mem_singleton, List.not_mem_nil,
    or_false] at h
  rcases h with h | h | h | h | h | h | h | h | h | h | h | h <;> subst h <;> decide

theorem matchesUSCIPattern_bound (tail : Nat → Bool) (htail : ∀ c, tail c = true → c < 128)
    (r : List Nat) (h : matchesUSCIPattern tail r) : ∀ c ∈ r, c < 128 := by
  obtain ⟨_, hp, hd, hw⟩ := h
  intro c hc
  rw [← List.take_append_drop 2 r, List.mem_append] at hc
  rcases hc with hc | hc
  · exact usciPrefixes_lt _ hp c hc
  · rw [← List.take_append_drop 6 (r.drop 2), List.mem_append, List.drop_drop] at hc
    rcases hc with hc | hc
    · exact isDigit_lt c (hd c hc)
    · exact htail c (hw c hc)

theorem matchesUSCIPattern_mono (t1 t2 : Nat → Bool) (h12 : ∀ c, t1 c = true → t2 c = true)
    (r : List Nat) (h : matchesUSCIPattern t1 r) : matchesUSCIPattern t2 r :=
  ⟨h.1, h.2.1, h.2.2.1, fun c hc => h12 c (h.2.2.2 c hc)⟩

theorem matchString_usci (code : GoString) (hm : matchString usciPattern code = true) :
    matchesUSCIPattern isWordChar (runes code) ∧ code.length = 18 ∧
      code.map UInt8.toNat = runes code := by
  have h := (usciPattern_run _).mp ((matchString_iff _ _).mp hm)
  obtain ⟨hmap, hl⟩ := runes_of_bound code _ rfl
    (matchesUSCIPattern_bound _ isWordChar_lt _ h)
  exact ⟨h, by rw [hl]; exact h.1, hmap⟩

theorem ValidateUSCI_total (code : GoString) : ∃ b, ValidateUSCI code = some b := by
  by_cases h15 : code.length = 15
  · exact ⟨true, by simp [ValidateUSCI, h15]⟩
  · by_cases hm : matchString usciPattern code = true
    · obtain ⟨_, hlen, _⟩ := matchString_usci code hm
      obtain ⟨e1, e2, b16, b17, _, _, _, _, h⟩ := ValidateUSCI_of_match code hlen hm
      exact ⟨_, h⟩
    · exact ⟨false, by simp [ValidateUSCI, h15, hm]⟩

theorem ValidateUSCI_no_match (code : GoString) (h15 : code.length ≠ 15)
    (hm : ¬ matchString usciPattern code = true) : ValidateUSCI code = some false := by
  simp [ValidateUSCI, h15, hm]

theorem exactSum_eq_weightedSum (checkCodes : List (String × Int)) (w : Nat → Nat) :
    ∀ (code : GoString) (fs : List Nat),
      (∀ b ∈ code, charWeight checkCodes b = (w b.toNat : Int)) →
      exactSum checkCodes code (fs.map Int.ofNat) =
        (weightedSum w (code.map UInt8.toNat) fs : Int) := by
  intro code
  induction code with
  | nil =>
    intro fs _
    simp [exactSum, weightedSum]
  | cons b rest ih =>
    intro fs h
    cases fs with
    | nil => simp [exactSum, weightedSum]
    | cons f fs =>
      have ih' := ih fs (fun x hx => h x (List.mem_cons_of_mem _ hx))
      simp only [exactSum, weightedSum, List.map_cons, List.zipWith_cons_cons,
        List.sum_cons] at ih' ⊢
      rw [ih', h b (List.mem_cons_self _ _)]
      push_cast
      rfl

theorem orgChar_fin : ∀ m : Fin 11,
    alphabet36.getD (remapOrg (11 - (m.val : Int))).toNat 0 =
      (if 11 - m.val = 11 then '0'.toNat
       else if 11 - m.val = 10 then alphabet36.getD 33 0 else '0'.toNat + (11 - m.val)) := by
  decide

theorem usciChar_fin : ∀ m : Fin 31,
    alphabet31.getD (remapUsci (31 - (m.val : Int))).toNat 0 =
      alphabet31.getD (if 31 - m.val = 31 then 0 else 31 - m.val) 0 := by
  decide

theorem orgChar_eq (body : GoString) (h : ∀ b ∈ body, b.toNat ∈ alphabet31) :
    alphabet36.getD (remapOrg (11 -
      exactSum organizationCheckCodes body orgFactors % 11)).toNat 0 =
      orgCheckChar (body.map UInt8.toNat) := by
  have hf : orgFactors = ([3, 7, 9, 10, 5, 8, 4, 2] : List Nat).map Int.ofNat := by decide
  rw [hf, exactSum_eq_weightedSum organizationCheckCodes w36 body _
    (fun b hb => (charWeight_alphabet b (h b hb)).1)]
  have := orgChar_fin ⟨weightedSum w36 (body.map UInt8.toNat) [3, 7, 9, 10, 5, 8, 4, 2] % 11,
    Nat.mod_lt _ (by omega)⟩
  simp only [Int.natCast_mod, Nat.cast_ofNat] at this
  rw [this]
  rfl

theorem usciChar_eq (body : GoString) (h : ∀ b ∈ body, b.toNat ∈ alphabet31) :
    alphabet31.getD (remapUsci (31 -
      exactSum socialCreditCheckCodes body usciFactors % 31)).toNat 0 =
      usciCheckChar (body.map UInt8.toNat) := by
  have hf : usciFactors =
      ([1, 3, 9, 27, 19, 26, 16, 17, 20, 29, 25, 13, 8, 24, 10, 30, 28] : List Nat).map
        Int.ofNat := by decide
  rw [hf, exactSum_eq_weightedSum socialCreditCheckCodes w31 body _
    (fun b hb => (charWeight_alphabet b (h b hb)).2)]
  have := usciChar_fin ⟨weightedSum w31 (body.map UInt8.toNat)
    [1, 3, 9, 27, 19, 26, 16, 17, 20, 29, 25, 13, 8, 24, 10, 30, 28] % 31,
    Nat.mod_lt _ (by omega)⟩
  simp only [Int.natCast_mod, Nat.cast_ofNat] at this
  rw [this]
  rfl

theorem alphabet31_word : ∀ c ∈ alphabet31, isWordChar c = true ∧ c < 128 := by
  decide

theorem byte_eq_iff (a b : UInt8) : a = b ↔ a.toNat = b.toNat :=
  ⟨fun h => by rw [h], UInt8.ext⟩

theorem ValidateUSCI_iff_bytes (code : GoString) (hlen : code.length = 18)
    (halpha : ∀ b ∈ code, b.toNat ∈ alphabet31) :
    ValidateUSCI code = some true ↔ isValidUSCI (code.map UInt8.toNat) := by
  have hr : runes code = code.map UInt8.toNat :=
    runes_eq_map code (fun b hb => (alphabet31_word _ (halpha b hb)).2)
  have hpat : matchString usciPattern code = true ↔
      ((code.map UInt8.toNat).take 2 ∈ usciPrefixes ∧
        ∀ c ∈ ((code.map UInt8.toNat).drop 2).take 6, isDigit c = true) := by
    rw [matchString_iff, usciPattern_run, hr]
    constructor
    · intro h
      exact ⟨h.2.1, h.2.2.1⟩
    · intro h
      refine ⟨by simp [hlen], h.1, h.2, ?_⟩
      intro c hc
      obtain ⟨b, hb, rfl⟩ := List.mem_map.mp (List.mem_of_mem_drop hc)
      exact (alphabet31_word _ (halpha b hb)).1
  by_cases hm : matchString usciPattern code = true
  · obtain ⟨e1, e2, b16, b17, h16, h17, he1, he2, hv⟩ := ValidateUSCI_of_match code hlen hm
    rw [orgChar_eq _ (fun b hb => halpha b (List.mem_of_mem_drop (List.mem_of_mem_take hb)))]
      at he1
    rw [usciChar_eq _ (fun b hb => halpha b (List.mem_of_mem_take hb))] at he2
    have hp := hpat.mp hm
    simp only [isValidUSCI, hv, Option.some.injEq, Bool.and_eq_true, beq_iff_eq,
      List.getElem?_map, h16, h17, Option.map_some', ← List.map_drop, ← List.map_take,
      ← he1, ← he2, byte_eq_iff e1, byte_eq_iff e2]
    constructor
    · rintro ⟨h1, h2⟩
      exact ⟨by simpa [← List.map_take] using hp.1, by simpa [← List.map_drop,
        ← List.map_take] using hp.2, h1.symm, h2.symm⟩
    · rintro ⟨_, _, h1, h2⟩
      exact ⟨h1.symm, h2.symm⟩
  · rw [ValidateUSCI_no_match code (by omega) hm]
    constructor
    · intro h
      cases h
    · intro h
      exact absurd (hpat.mpr ⟨h.1, h.2.1⟩) hm

theorem ValidateUSCI_iff_runes (code : GoString) (hlen : (runes code).length = 18)
    (halpha : ∀ c ∈ runes code, c ∈ alphabet31) :
    ValidateUSCI code = some true ↔ isValidUSCI (runes code) := by
  obtain ⟨hmap, hl⟩ := runes_of_bound code _ rfl (fun c hc => (alphabet31_word c (halpha c hc)).2)
  rw [← hmap] at halpha ⊢
  exact ValidateUSCI_iff_bytes code (by omega) (fun b hb => halpha _ (List.mem_map_of_mem _ hb))

/-! ## The identity-card pattern -/

theorem mem_seg_iff {α : Type} (r : List α) (i n : Nat) (x : α) :
    x ∈ (r.drop i).take n ↔ ∃ j, i ≤ j ∧ j < i + n ∧ r[j]? = some x := by
  rw [List.mem_iff_getElem?]
  constructor
  · rintro ⟨k, hk⟩
    rw [List.getElem?_take] at hk
    split_ifs at hk with hkn
    rw [List.getElem?_drop] at hk
    exact ⟨i + k, by omega, by omega, hk⟩
  · rintro ⟨j, h1, h2, hj⟩
    refine ⟨j - i, ?_⟩
    rw [List.getElem?_take, if_pos (by omega), List.getElem?_drop]
    rw [show i + (j - i) = j by omega]
    exact hj

theorem mem_take_iff {α : Type} (r : List α) (n : Nat) (x : α) :
    x ∈ r.take n ↔ ∃ j, j < n ∧ r[j]? = some x := by
  have := mem_seg_iff r 0 n x
  simp only [List.drop_zero, Nat.zero_le, true_and, Nat.zero_add] at this
  exact this

theorem mem_drop_iff {α : Type} (r : List α) (i : Nat) (x : α) :
    x ∈ r.drop i ↔ ∃ j, i ≤ j ∧ r[j]? = some x := by
  rw [List.mem_iff_getElem?]
  constructor
  · rintro ⟨k, hk⟩
    rw [List.getElem?_drop] at hk
    exact ⟨i + k, by omega, hk⟩
  · rintro ⟨j, h1, hj⟩
    refine ⟨j - i, ?_⟩
    rw [List.getElem?_drop, show i + (j - i) = j by omega]
    exact hj

theorem mem_run_cls_iff (rs : List (Char × Char)) (s u : List Nat) :
    u ∈ (Regex.cls rs).run s ↔
      1 ≤ s.length ∧ (∀ x ∈ s.take 1, inClass rs x = true) ∧ u = s.drop 1 := by
  rw [mem_run_cls]
  constructor
  · rintro ⟨x, rfl, hx⟩
    exact ⟨by simp, by simpa using hx, rfl⟩
  · rintro ⟨h1, hall, rfl⟩
    cases s with
    | nil => simp at h1
    | cons x t => exact ⟨x, rfl, hall x (by simp)⟩

theorem inClass_digitX (x : Nat) :
    inClass [('0', '9'), ('X', 'X')] x = (isDigit x || x == 'X'.toNat) := by
  simp only [inClass, isDigit, List.any_cons, List.any_nil, Bool.or_false]
  congr 1
  rw [Bool.eq_iff_iff]
  simp only [decide_eq_true_eq, beq_iff_eq]
  omega

theorem idCardPattern_run (r : List Nat) :
    [] ∈ idCardPattern.run r ↔ matchesIDCardPattern r := by
  simp only [idCardPattern, reDigit, mem_run_cat, mem_run_rep_cls_iff, mem_run_cls_iff,
    inClass_digit, inClass_nonzero, inClass_digitX, matchesIDCardPattern]
  constructor
  · rintro ⟨v2, ⟨v1, ⟨h1, hnz, rfl⟩, h14, hd14, rfl⟩, v3, ⟨h2, hd2, rfl⟩, h3, hcls, hnil⟩
    simp only [List.drop_drop, List.length_drop] at h14 hd14 h2 hd2 h3 hcls hnil
    have hlen : r.length = 18 := by
      have := congrArg List.length hnil
      simp only [List.length_nil, List.length_drop] at this
      omega
    refine ⟨hlen, hnz, ?_, ?_⟩
    · intro c hc
      rw [List.drop_take, mem_seg_iff] at hc
      obtain ⟨j, hj1, hj2, hj⟩ := hc
      by_cases h15 : j < 15
      · exact hd14 c ((mem_seg_iff r 1 14 c).mpr ⟨j, hj1, by omega, hj⟩)
      · exact hd2 c ((mem_seg_iff r (1 + 14) 2 c).mpr ⟨j, by omega, by omega, hj⟩)
    · intro c hc
      apply hcls
      rw [List.take_of_length_le (by simp [hlen])]
      exact hc
  · rintro ⟨hlen, hnz, hd, hx⟩
    refine ⟨r.drop 15, ⟨r.drop 1, ⟨by omega, hnz, rfl⟩, by simp [hlen], ?_, by
      rw [List.drop_drop]⟩, r.drop 17, ⟨by simp [hlen], ?_, by rw [List.drop_drop]⟩,
      by simp [hlen], ?_, ?_⟩
    · intro c hc
      apply hd
      rw [List.drop_take, mem_seg_iff]
      obtain ⟨j, hj1, hj2, hj⟩ := (mem_seg_iff r 1 14 c).mp hc
      exact ⟨j, hj1, by omega, hj⟩
    · intro c hc
      apply hd
      rw [List.drop_take, mem_seg_iff]
      obtain ⟨j, hj1, hj2, hj⟩ := (mem_seg_iff r 15 2 c).mp hc
      exact ⟨j, by omega, by omega, hj⟩
    · intro c hc
      exact hx c (List.mem_of_mem_take hc)
    · rw [List.drop_drop]
      symm
      apply List.drop_of_length_le
      omega

theorem matchesIDCardPattern_bound (r : List Nat) (h : matchesIDCardPattern r) :
    ∀ c ∈ r, c < 128 := by
  obtain ⟨hlen, hnz, hd, hx⟩ := h
  intro c hc
  obtain ⟨j, hj⟩ := List.mem_iff_getElem?.mp hc
  by_cases h0 : j < 1
  · have := hnz c ((mem_take_iff r 1 c).mpr ⟨j, h0, hj⟩)
    simp only [isNonzeroDigit, decide_eq_true_eq] at this
    have e9 : '9'.toNat = 57 := by decide
    omega
  · by_cases h17 : j < 17
    · have := hd c (by
        rw [List.drop_take, mem_seg_iff]
        exact ⟨j, by omega, by omega, hj⟩)
      exact isDigit_lt c this
    · have := hx c ((mem_drop_iff r 17 c).mpr ⟨j, by omega, hj⟩)
      simp only [isDigit, Bool.or_eq_true, decide_eq_true_eq, beq_iff_eq] at this
      have e9 : '9'.toNat = 57 := by decide
      have eX : 'X'.toNat = 88 := by decide
      omega

/-! ## Unfolding `ValidateIDCard` -/

theorem char_toNat_ofNat (n : Nat) (h : n < 256) : (Char.ofNat n).toNat = n := by
  have hv : n.isValidChar := Or.inl (by omega)
  simp only [Char.ofNat, hv, dite_true, Char.ofNatAux, Char.toNat]
  simp [UInt32.toNat]

theorem byteToString_eq_iff (b : UInt8) (n : Nat) (hn : n < 256) :
    String.singleton (Char.ofNat n) = byteToString b ↔ b.toNat = n := by
  constructor
  · intro h
    have h1 : Char.ofNat n = Char.ofNat b.toNat := by
      have := congrArg String.data h
      simpa [byteToString, String.singleton] using this
    have h2 := congrArg Char.toNat h1
    rw [char_toNat_ofNat n hn, char_toNat_ofNat b.toNat (UInt8.toNat_lt b)] at h2
    exact h2.symm
  · intro h
    rw [byteToString, h]

theorem atoi_byte (b : UInt8) (h : isDigit b.toNat = true) :
    atoi (byteToString b) = ((b.toNat - '0'.toNat : Nat) : Int) := by
  have e0 : '0'.toNat = 48 := by decide
  have hd := h
  simp only [isDigit, decide_eq_true_eq] at hd
  rw [atoi, parseInt_byte, if_pos h, e0]
  simp only [Option.getD_some]
  omega

theorem idSumLoop_eq (items : List Int) : ∀ (fs : List Int) (i : Nat) (value : Int),
    i + fs.length ≤ items.length → inInt64 value →
      idSumLoop items fs i value =
        some (wrap64 (value + (List.zipWith (fun f x => f * x) fs (items.drop i)).sum)) := by
  intro fs
  induction fs with
  | nil =>
    intro i value _ hv
    simp [idSumLoop, wrap64_of_inInt64 value hv]
  | cons f fs ih =>
    intro i value hlen hv
    have hi : i < items.length := by
      simp only [List.length_cons] at hlen
      omega
    have hx : items[i]? = some items[i] := List.getElem?_eq_getElem hi
    have hdrop : items.drop i = items[i] :: items.drop (i + 1) := List.drop_eq_getElem_cons hi
    simp only [idSumLoop, hx]
    rw [ih (i + 1) _ (by simp only [List.length_cons] at hlen; omega) (inInt64_wrap64 _), hdrop]
    simp only [List.zipWith_cons_cons, List.sum_cons]
    rw [wrap64_step]

theorem idSum_cast (fs cs : List Nat) :
    (List.zipWith (fun f x => f * x) (fs.map Int.ofNat)
      (cs.map fun c => ((c - '0'.toNat : Nat) : Int))).sum =
      (weightedSum (fun c => c - '0'.toNat) cs fs : Int) := by
  induction fs generalizing cs with
  | nil => simp [weightedSum]
  | cons f fs ih =>
    cases cs with
    | nil => simp [weightedSum]
    | cons c cs =>
      have ih' := ih cs
      simp only [weightedSum, List.map_cons, List.zipWith_cons_cons, List.sum_cons] at ih' ⊢
      rw [ih']
      push_cast
      rw [Int.mul_comm]
      rfl

theorem weightedSum_le (w : Nat → Nat) (W : Nat) (cs : List Nat) (hw : ∀ c ∈ cs, w c ≤ W) :
    ∀ fs : List Nat, weightedSum w cs fs ≤ W * fs.sum := by
  induction cs with
  | nil =>
    intro fs
    simp [weightedSum]
  | cons c cs ih =>
    intro fs
    cases fs with
    | nil => simp [weightedSum]
    | cons f fs =>
      have ih' := ih (fun x hx => hw x (List.mem_cons_of_mem _ hx)) fs
      simp only [weightedSum, List.zipWith_cons_cons, List.sum_cons] at ih' ⊢
      have := Nat.mul_le_mul_right f (hw c (List.mem_cons_self _ _))
      rw [Nat.mul_add]
      omega

theorem idCheckCodes_fin : ∀ m : Fin 11,
    idCheckCodes[m.val]? = some (String.singleton (Char.ofNat (idTable.getD m.val 0))) ∧
      idTable.getD m.val 0 < 256 := by
  decide

theorem ValidateIDCard_of_match (code : GoString)
    (hm : matchString idCardPattern code = true) :
    matchesIDCardPattern (runes code) ∧ code.map UInt8.toNat = runes code ∧
      ∃ b17, code[17]? = some b17 ∧
        ValidateIDCard code =
          some (decide (b17.toNat = idCheckChar ((code.take 17).map UInt8.toNat))) := by
  have h := (idCardPattern_run _).mp ((matchString_iff _ _).mp hm)
  obtain ⟨hmap, hl⟩ := runes_of_bound code _ rfl (matchesIDCardPattern_bound _ h)
  refine ⟨h, hmap, ?_⟩
  rw [← hmap] at h
  obtain ⟨hlen, hnz, hd, _⟩ := h
  rw [List.length_map] at hlen
  have hdig : ∀ b ∈ code.take 17, isDigit b.toNat = true := by
    intro b hb
    obtain ⟨j, hj, hjb⟩ := (mem_take_iff code 17 b).mp hb
    have hjr : (code.map UInt8.toNat)[j]? = some b.toNat := by
      rw [List.getElem?_map, hjb]
      rfl
    by_cases h0 : j < 1
    · have := hnz b.toNat ((mem_take_iff _ 1 _).mpr ⟨j, h0, hjr⟩)
      simp only [isNonzeroDigit, isDigit, decide_eq_true_eq] at this ⊢
      have e0 : '0'.toNat = 48 := by decide
      have e1 : '1'.toNat = 49 := by decide
      omega
    · apply hd
      rw [List.drop_take, mem_seg_iff]
      exact ⟨j, by omega, by omega, hjr⟩
  have hitems : ((code.take (code.length - 1)).map fun b => atoi (byteToString b)) =
      ((code.take 17).map UInt8.toNat).map fun c => ((c - '0'.toNat : Nat) : Int) := by
    rw [hlen, List.map_map]
    apply List.map_congr_left
    intro b hb
    exact atoi_byte b (hdig b hb)
  have hf : idFactors =
      ([7, 9, 10, 5, 8, 4, 2, 1, 6, 3, 7, 9, 10, 5, 8, 4, 2] : List Nat).map Int.ofNat := by
    decide
  have hW : weightedSum (fun c => c - '0'.toNat) ((code.take 17).map UInt8.toNat)
      [7, 9, 10, 5, 8, 4, 2, 1, 6, 3, 7, 9, 10, 5, 8, 4, 2] ≤ 9 * 100 := by
    apply weightedSum_le
    intro c hc
    obtain ⟨b, hb, rfl⟩ := List.mem_map.mp hc
    have := hdig b hb
    simp only [isDigit, decide_eq_true_eq] at this
    have e0 : '0'.toNat = 48 := by decide
    have e9 : '9'.toNat = 57 := by decide
    omega
  generalize hWdef : weightedSum (fun c => c - '0'.toNat) ((code.take 17).map UInt8.toNat)
      [7, 9, 10, 5, 8, 4, 2, 1, 6, 3, 7, 9, 10, 5, 8, 4, 2] = W at hW
  have hsum : idSumLoop ((code.take (code.length - 1)).map fun b => atoi (byteToString b))
      idFactors 0 0 = some (W : Int) := by
    rw [idSumLoop_eq _ idFactors 0 0 (by simp [hlen, idFactors]) (by unfold inInt64; omega),
      hitems, List.drop_zero, hf, idSum_cast, hWdef, Int.zero_add,
      wrap64_of_inInt64 _ (by unfold inInt64; omega)]
  have hmod : (W : Int).tmod 11 = ((W % 11 : Nat) : Int) := by
    rw [Int.tmod_eq_emod (by omega) (by omega)]
    omega
  obtain ⟨htab, hlt⟩ := idCheckCodes_fin ⟨W % 11, Nat.mod_lt _ (by omega)⟩
  have hidx : index idCheckCodes ((W : Int).tmod 11) =
      some (String.singleton (Char.ofNat (idTable.getD (W % 11) 0))) := by
    rw [hmod]
    unfold index
    rw [if_neg (Int.not_lt.mpr (Int.ofNat_nonneg _)), Int.toNat_ofNat]
    exact htab
  have h17 : code[17]? = some code[17] := List.getElem?_eq_getElem (by omega)
  have hlast : index code ((code.length : Int) - 1) = some code[17] := by
    have e17 : ((code.length : Int) - 1) = ((17 : Nat) : Int) := by omega
    rw [e17]
    unfold index
    rw [if_neg (Int.not_lt.mpr (Int.ofNat_nonneg _)), Int.toNat_ofNat]
    exact h17
  refine ⟨code[17], h17, ?_⟩
  simp only [ValidateIDCard, hm, Bool.not_true, Bool.false_eq_true, if_false]
  simp only [Option.bind_eq_bind, hsum, Option.some_bind, hidx, hlast, Option.some.injEq,
    idCheckChar, hWdef]
  rw [Bool.eq_iff_iff]
  simp only [beq_iff_eq, decide_eq_true_eq]
  exact byteToString_eq_iff _ _ hlt

theorem ValidateIDCard_total (code : GoString) : ∃ b, ValidateIDCard code = some b := by
  by_cases hm : matchString idCardPattern code = true
  · obtain ⟨_, _, b17, _, h⟩ := ValidateIDCard_of_match code hm
    exact ⟨_, h⟩
  · exact ⟨false, by simp [ValidateIDCard, hm]⟩

theorem ValidateIDCard_iff (code : GoString) :
    ValidateIDCard code = some true ↔ isValidIDCard (runes code) := by
  by_cases hm : matchString idCardPattern code = true
  · obtain ⟨hshape, hmap, b17, h17, hv⟩ := ValidateIDCard_of_match code hm
    rw [hv, isValidIDCard, ← hmap, List.getElem?_map, h17, List.map_take]
    simp only [Option.some.injEq, decide_eq_true_eq, Option.map_some']
    constructor
    · intro h
      exact ⟨by rw [hmap]; exact hshape, h⟩
    · intro h
      exact h.2
  · have hv : ValidateIDCard code = some false := by simp [ValidateIDCard, hm]
    rw [hv]
    constructor
    · intro h
      cases h
    · intro h
      exact absurd ((matchString_iff _ _).mpr ((idCardPattern_run _).mpr h.1)) hm

/-! ## The claims -/

set_option maxRecDepth 100000

/-- C1: for every 18-character code whose characters all belong to the 31-symbol
alphabet, `ValidateUSCI` returns true if and only if (a) the first two characters are one
of the twelve prefixes, (b) characters 3-8 are digits, (c) the 17th character is the
organization check character and (d) the 18th character is the overall check character. -/
theorem ValidateUSCI_valid_iff (code : GoString) (hlen : (runes code).length = 18)
    (halpha : ∀ c ∈ runes code, c ∈ alphabet31) :
    ValidateUSCI code = some true ↔ isValidUSCI (runes code) :=
  ValidateUSCI_iff_runes code hlen halpha

/-- C1, witness: the code `91310000MA1K3L6J4Y`. -/
theorem ValidateUSCI_valid_iff_witness :
    (runes validExampleCode).length = 18 ∧
      (runes validExampleCode).all (fun c => decide (c ∈ alphabet31)) = true ∧
      isValidUSCI (runes validExampleCode) :=
  ⟨by decide, by decide,
    (ValidateUSCI_valid_iff validExampleCode (by decide) (by decide)).mp (by decide)⟩

/-- C2: for every string, `ValidateIDCard` returns true if and only if the string has
exactly 18 characters, the first a digit 1-9, the second to seventeenth digits, the
eighteenth a digit or `X`, and the eighteenth character is the entry of the check table
at the weighted sum of the first seventeen digits modulo 11. -/
theorem ValidateIDCard_valid_iff (code : GoString) :
    ValidateIDCard code = some true ↔ isValidIDCard (runes code) :=
  ValidateIDCard_iff code

/-- C3: for every string of length 15 (`len(code) == 15`, the number of bytes),
`ValidateUSCI` returns true whatever the content. -/
theorem ValidateUSCI_length15 (code : GoString) (h : code.length = 15) :
    ValidateUSCI code = some true := by
  simp [ValidateUSCI, h]

/-- C3, witness: a text of 15 bytes that is not a credit code. -/
theorem ValidateUSCI_length15_witness :
    (GoString.ofString "not a code !?#_").length = 15 ∧
      ValidateUSCI (GoString.ofString "not a code !?#_") = some true :=
  ⟨by decide, ValidateUSCI_length15 _ (by decide)⟩

/-- C4, counterexample: a string of length 18 that contains underscores, hence does not
match the pattern with alphanumeric characters, and that `ValidateUSCI` accepts. -/
theorem ValidateUSCI_underscore_accepted :
    underscoreCode.length ≠ 15 ∧ ¬ matchesUSCIPattern isAlnum (runes underscoreCode) ∧
      ValidateUSCI underscoreCode = some true := by
  refine ⟨by decide, ?_, by decide⟩
  unfold matchesUSCIPattern
  decide

/-- C4, amended: for every string whose length is not 15 and that does not match the
pattern of one of the twelve prefixes, six digits and ten word characters (digits, ASCII
letters or underscores), `ValidateUSCI` returns false. -/
theorem ValidateUSCI_rejects_unmatched (code : GoString) (h15 : code.length ≠ 15)
    (hp : ¬ matchesUSCIPattern isWordChar (runes code)) :
    ValidateUSCI code = some false := by
  apply ValidateUSCI_no_match code h15
  intro hm
  exact hp ((usciPattern_run _).mp ((matchString_iff _ _).mp hm))

/-- C4, witness: a code of 18 characters with a hyphen. -/
theorem ValidateUSCI_rejects_unmatched_witness :
    (GoString.ofString "91310000MA1K3L6J-Y").length ≠ 15 ∧
      ¬ matchesUSCIPattern isWordChar (runes (GoString.ofString "91310000MA1K3L6J-Y")) ∧
      ValidateUSCI (GoString.ofString "91310000MA1K3L6J-Y") = some false :=
  ⟨by decide, by unfold matchesUSCIPattern; decide,
    ValidateUSCI_rejects_unmatched _ (by decide) (by unfold matchesUSCIPattern; decide)⟩

/-- C5, counterexample: `ValidateUSCI` rejects the example code `91310000MA1K3L6J9Q`. -/
theorem ValidateUSCI_specExample_rejected : ValidateUSCI specExampleCode = some false := by
  decide

/-- C5, amended: the organization check character of `MA1K3L6J` is `4` and the overall
check character of `91310000MA1K3L6J4` is `Y`; the example with these two check
characters, `91310000MA1K3L6J4Y`, is accepted by `ValidateUSCI`. -/
theorem ValidateUSCI_validExample_accepted :
    orgCheckChar (runesOf "MA1K3L6J") = '4'.toNat ∧
      usciCheckChar (runesOf "91310000MA1K3L6J4") = 'Y'.toNat ∧
      ValidateUSCI validExampleCode = some true := by
  decide

/-- C6, counterexample: seventeen digits `0` followed by their correct check character
`1` are rejected by `ValidateIDCard`. -/
theorem ValidateIDCard_leading_zero_rejected :
    ((runes zeroIDCard).take 17).all isDigit = true ∧
      (runes zeroIDCard)[17]? = some (idCheckChar ((runes zeroIDCard).take 17)) ∧
      ValidateIDCard zeroIDCard = some false := by
  decide

theorem idTable_fin : ∀ m : Fin 11,
    (isDigit (idTable.getD m.val 0) || idTable.getD m.val 0 == 'X'.toNat) = true := by
  decide

theorem ValidateIDCard_of_digits_aux (code : GoString) (digits : List Nat)
    (hlen : digits.length = 17) (hd : ∀ c ∈ digits, isDigit c = true)
    (hnz : digits.head? ≠ some '0'.toNat) (hcode : runes code = digits ++ [idCheckChar digits]) :
    ValidateIDCard code = some true := by
  rw [ValidateIDCard_iff, hcode]
  have htake : (digits ++ [idCheckChar digits]).take 17 = digits := List.take_left' hlen
  have hdrop : (digits ++ [idCheckChar digits]).drop 17 = [idCheckChar digits] :=
    List.drop_left' hlen
  refine ⟨⟨by simp [hlen], ?_, ?_, ?_⟩, ?_⟩
  · intro c hc
    obtain ⟨j, hj, hjc⟩ := (mem_take_iff _ 1 c).mp hc
    have hj0 : j = 0 := by omega
    subst hj0
    cases digits with
    | nil => simp at hlen
    | cons d ds =>
      simp only [List.cons_append, List.getElem?_cons_zero, Option.some.injEq] at hjc
      subst hjc
      have h1 := hd d (List.mem_cons_self _ _)
      simp only [List.head?_cons, ne_eq, Option.some.injEq] at hnz
      simp only [isDigit, isNonzeroDigit, decide_eq_true_eq] at h1 ⊢
      have e0 : '0'.toNat = 48 := by decide
      have e1 : '1'.toNat = 49 := by decide
      omega
  · rw [htake]
    intro c hc
    exact hd c (List.mem_of_mem_drop hc)
  · rw [hdrop]
    intro c hc
    rw [List.mem_singleton.mp hc]
    exact idTable_fin ⟨_, Nat.mod_lt _ (by omega)⟩
  · rw [htake, ← hlen]
    simp

/-- C6, amended: for every string made of 17 digits, the first of which is not `0`,
followed by the correct check character for those digits, `ValidateIDCard` returns true. -/
theorem ValidateIDCard_of_digits (code : GoString) (digits : List Nat)
    (hlen : digits.length = 17) (hd : ∀ c ∈ digits, isDigit c = true)
    (hnz : digits.head? ≠ some '0'.toNat) (hcode : runes code = digits ++ [idCheckChar digits]) :
    ValidateIDCard code = some true :=
  ValidateIDCard_of_digits_aux code digits hlen hd hnz hcode

/-- C6, witness: the number `11010519491231002X`. -/
theorem ValidateIDCard_of_digits_witness :
    (runesOf "11010519491231002").length = 17 ∧
      runes validIDCard =
        runesOf "11010519491231002" ++ [idCheckChar (runesOf "11010519491231002")] ∧
      ValidateIDCard validIDCard = some true :=
  ⟨by decide, by decide,
    ValidateIDCard_of_digits validIDCard (runesOf "11010519491231002") (by decide) (by decide)
      (by decide) (by decide)⟩

/-- C7: for every string, `ValidatePhone` returns true if and only if the string has
exactly 11 characters, the first is `1` and every character is an ASCII digit; it
accepts `13800138000` and rejects `23800138000` and the 10-digit `1380013800`. -/
theorem ValidatePhone_valid_iff :
    (∀ s : GoString, ValidatePhone s = true ↔ isPhoneNumber (runes s)) ∧
      ValidatePhone (GoString.ofString "13800138000") = true ∧
      ValidatePhone (GoString.ofString "23800138000") = false ∧
      ValidatePhone (GoString.ofString "1380013800") = false :=
  ⟨ValidatePhone_iff, by decide, by decide, by decide⟩

theorem ValidateBuidlingCode_lengths (s : GoString) (h : ValidateBuidlingCode s = true) :
    isBuildingCode (runes s) ∧ s.length = (runes s).length ∧
      stringsCount s 'T' = (runes s).count 'T'.toNat := by
  have hb := (ValidateBuidlingCode_iff s).mp h
  obtain ⟨hmap, hl⟩ := runes_of_bound s (runes s) rfl (isBuildingCode_bound _ hb)
  exact ⟨hb, hl, by rw [stringsCount_eq, hmap]⟩

/-- C8: for every string, `ValidateBuidlingCode` returns true if and only if the length
is 19 or 25, `T` occurs at most once, the first character is a digit 1-9 and every later
character is a digit or `T`. Every string of length 20 (in characters or in bytes) and
every string with two or more `T` is rejected. -/
theorem ValidateBuidlingCode_valid_iff :
    (∀ s : GoString, ValidateBuidlingCode s = true ↔ isBuildingCode (runes s)) ∧
      (∀ s : GoString, (runes s).length = 20 ∨ s.length = 20 →
        ValidateBuidlingCode s = false) ∧
      (∀ s : GoString, 2 ≤ (runes s).count 'T'.toNat ∨ 2 ≤ stringsCount s 'T' →
        ValidateBuidlingCode s = false) := by
  refine ⟨ValidateBuidlingCode_iff, ?_, ?_⟩
  · intro s h20
    cases hv : ValidateBuidlingCode s with
    | false => rfl
    | true =>
      obtain ⟨hb, hl, _⟩ := ValidateBuidlingCode_lengths s hv
      have := hb.1
      omega
  · intro s h2
    cases hv : ValidateBuidlingCode s with
    | false => rfl
    | true =>
      obtain ⟨hb, _, hc⟩ := ValidateBuidlingCode_lengths s hv
      have := hb.2.1
      omega

/-- C8, witness: a text of 20 digits, a text with two `T`, and a building code. -/
theorem ValidateBuidlingCode_valid_iff_witness :
    ValidateBuidlingCode (GoString.ofString "12345678901234567890") = false ∧
      ValidateBuidlingCode (GoString.ofString "12345678901234T678T") = false ∧
      isBuildingCode (runes (GoString.ofString "12345678901234T6789")) :=
  ⟨ValidateBuidlingCode_valid_iff.2.1 _ (Or.inl (by decide)),
    ValidateBuidlingCode_valid_iff.2.2 _ (Or.inl (by decide)),
    (ValidateBuidlingCode_valid_iff.1 _).mp (by decide)⟩

/-- C9, counterexample: for the fragment `9`, the factor `2 ^ 62` and the modulus 7 the
product overflows the 64-bit `int`; `genCheckCode` returns 3, while `mode - (S mod mode)`
is 6 for the exact sum `S = 9 * 2 ^ 62`. -/
theorem genCheckCode_overflow :
    (GoString.ofString "9").length ≤ [(4611686018427387904 : Int)].length ∧ (0 : Int) < 7 ∧
      genCheckCode (GoString.ofString "9") [4611686018427387904] 7 [] = some 3 ∧
      7 - exactSum [] (GoString.ofString "9") [4611686018427387904] % 7 = 6 := by
  decide

/-- C9, amended: for every code fragment, every factor sequence at least as long as the
fragment, every modulus `mode > 0` and every table such that the exact sum `S` and the
value `mode - (S rem mode)` are within the range of a 64-bit `int`, `genCheckCode` returns
`mode - (S rem mode)`, where `rem` is the truncated remainder of Go; when `S` is not
negative this is `mode - (S mod mode)`. -/
theorem genCheckCode_spec (code : GoString) (factors : List Int) (mode : Int)
    (checkCodes : List (String × Int)) (hlen : code.length ≤ factors.length)
    (hmode : 0 < mode) (hS : inInt64 (exactSum checkCodes code factors))
    (hR : inInt64 (mode - Int.tmod (exactSum checkCodes code factors) mode)) :
    genCheckCode code factors mode checkCodes =
        some (mode - Int.tmod (exactSum checkCodes code factors) mode) ∧
      (0 ≤ exactSum checkCodes code factors →
        genCheckCode code factors mode checkCodes =
          some (mode - exactSum checkCodes code factors % mode)) := by
  have h : genCheckCode code factors mode checkCodes =
      some (mode - Int.tmod (exactSum checkCodes code factors) mode) := by
    rw [genCheckCode_eq code factors mode checkCodes hlen (by omega), wrap64_of_inInt64 _ hS,
      wrap64_of_inInt64 _ hR]
  refine ⟨h, ?_⟩
  intro h0
  rw [h, Int.tmod_eq_emod h0 (by omega)]

/-- C9, witness: the organization body `MA1K3L6J`, whose exact sum is 590. -/
theorem genCheckCode_spec_witness :
    genCheckCode (GoString.ofString "MA1K3L6J") orgFactors 11 organizationCheckCodes =
      some (11 - Int.tmod (exactSum organizationCheckCodes (GoString.ofString "MA1K3L6J")
        orgFactors) 11) ∧
    exactSum organizationCheckCodes (GoString.ofString "MA1K3L6J") orgFactors = 590 :=
  ⟨(genCheckCode_spec (GoString.ofString "MA1K3L6J") orgFactors 11 organizationCheckCodes
      (by decide) (by decide) (by unfold inInt64; decide) (by unfold inInt64; decide)).1,
    by decide⟩

theorem usci_accesses (code : GoString) (hm : matchString usciPattern code = true) :
    (∃ org, slice code 8 17 = some org ∧ (index org 8).isSome = true ∧
      ∃ body, slice org 0 8 = some body ∧
        ∃ c, genCheckCode body orgFactors 11 organizationCheckCodes = some c ∧
          (index stringCodes36 (remapOrg c)).isSome = true) ∧
    (∃ first17, slice code 0 17 = some first17 ∧
      ∃ c, genCheckCode first17 usciFactors 31 socialCreditCheckCodes = some c ∧
        (index stringCodes31 (remapUsci c)).isSome = true) ∧
    (index code 17).isSome = true := by
  obtain ⟨_, hlen, _⟩ := matchString_usci code hm
  have h16 : code[16]? = some code[16] := List.getElem?_eq_getElem (by omega)
  have h17 : code[17]? = some code[17] := List.getElem?_eq_getElem (by omega)
  obtain ⟨c1, hg1, _, h10, h11⟩ := orgIndex_spec (((code.take 17).drop 8).take 8)
    (by simp [hlen])
  obtain ⟨c2, hg2, _, h20, h21⟩ := usciIndex_spec (code.take 17) (by simp [hlen])
  obtain ⟨e1, he1, _⟩ := index_of_map stringCodes36_map (remapOrg c1) h10
    (by simpa [alphabet36, runesOf] using h11)
  obtain ⟨e2, he2, _⟩ := index_of_map stringCodes31_map (remapUsci c2) h20
    (by simpa [alphabet31, runesOf] using h21)
  refine ⟨⟨(code.take 17).drop 8, by simp [slice, hlen], ?_, ((code.take 17).drop 8).take 8,
    by simp [slice, hlen], c1, hg1, by simp [he1]⟩,
    ⟨code.take 17, by simp [slice, hlen], c2, hg2, by simp [he2]⟩, by simp [index, h17]⟩
  simp [index, List.getElem?_drop, List.getElem?_take, h16]

theorem idCard_accesses (code : GoString) (hm : matchString idCardPattern code = true) :
    ∃ value, idSumLoop ((code.take (code.length - 1)).map fun b => atoi (byteToString b))
        idFactors 0 0 = some value ∧
      (index idCheckCodes (Int.tmod value 11)).isSome = true ∧
      (index code ((code.length : Int) - 1)).isSome = true := by
  obtain ⟨b, hb⟩ := ValidateIDCard_total code
  simp only [ValidateIDCard, hm, Bool.not_true, Bool.false_eq_true, if_false,
    Option.bind_eq_bind] at hb
  cases hs : idSumLoop ((code.take (code.length - 1)).map fun b => atoi (byteToString b))
      idFactors 0 0 with
  | none =>
    rw [hs] at hb
    simp at hb
  | some value =>
    rw [hs] at hb
    simp only [Option.some_bind] at hb
    refine ⟨value, rfl, ?_, ?_⟩
    · cases hi : index idCheckCodes (Int.tmod value 11) with
      | none =>
        rw [hi] at hb
        simp at hb
      | some _ => rfl
    · cases hi : index idCheckCodes (Int.tmod value 11) with
      | none =>
        rw [hi] at hb
        simp at hb
      | some _ =>
        rw [hi] at hb
        simp only [Option.some_bind] at hb
        cases hj : index code ((code.length : Int) - 1) with
        | none =>
          rw [hj] at hb
          simp at hb
        | some _ => rfl

/-- C10: for every input string each validator returns a boolean and no access is out of
range (a panic is the result `none`). Past the pattern test of `ValidateUSCI` the slices
`code[8:17]`, `organizationCode[:8]`, `code[:17]` and the indices `organizationCode[8]`,
`code[17]` are within bounds, both calls of `genCheckCode` read their factors within
bounds, and both remapped check indices are within `stringCodes`; past the pattern test
of `ValidateIDCard` every `items[i]`, `checkCodes[value%11]` and the last byte of the code
are within bounds. -/
theorem validators_no_panic (code : GoString) :
    (∃ b, ValidateUSCI code = some b) ∧ (∃ b, ValidateIDCard code = some b) ∧
    (ValidatePhone code = true ∨ ValidatePhone code = false) ∧
    (ValidateBuidlingCode code = true ∨ ValidateBuidlingCode code = false) ∧
    (matchString usciPattern code = true →
      (∃ org, slice code 8 17 = some org ∧ (index org 8).isSome = true ∧
        ∃ body, slice org 0 8 = some body ∧
          ∃ c, genCheckCode body orgFactors 11 organizationCheckCodes = some c ∧
            (index stringCodes36 (remapOrg c)).isSome = true) ∧
      (∃ first17, slice code 0 17 = some first17 ∧
        ∃ c, genCheckCode first17 usciFactors 31 socialCreditCheckCodes = some c ∧
          (index stringCodes31 (remapUsci c)).isSome = true) ∧
      (index code 17).isSome = true) ∧
    (matchString idCardPattern code = true →
      ∃ value, idSumLoop ((code.take (code.length - 1)).map fun b => atoi (byteToString b))
          idFactors 0 0 = some value ∧
        (index idCheckCodes (Int.tmod value 11)).isSome = true ∧
        (index code ((code.length : Int) - 1)).isSome = true) := by
  refine ⟨ValidateUSCI_total code, ValidateIDCard_total code, ?_, ?_, usci_accesses code,
    idCard_accesses code⟩
  · cases ValidatePhone code
    · exact Or.inr rfl
    · exact Or.inl rfl
  · cases ValidateBuidlingCode code
    · exact Or.inr rfl
    · exact Or.inl rfl

/-- C10, witness: the accesses of the code `91310000MA1K3L6J4Y` and of the identity-card
number `11010519491231002X`. -/
theorem validators_no_panic_witness :
    (∃ c, genCheckCode (GoString.ofString "91310000MA1K3L6J4") usciFactors 31
        socialCreditCheckCodes = some c ∧
      (index stringCodes31 (remapUsci c)).isSome = true) ∧
    ∃ value, idSumLoop ((validIDCard.take (validIDCard.length - 1)).map
        fun b => atoi (byteToString b)) idFactors 0 0 = some value ∧
      (index idCheckCodes (Int.tmod value 11)).isSome = true ∧
      (index validIDCard ((validIDCard.length : Int) - 1)).isSome = true := by
  have h := validators_no_panic validExampleCode
  have h2 := validators_no_panic validIDCard
  obtain ⟨first17, hs, hc⟩ := (h.2.2.2.2.1 (by decide)).2.1
  have e : first17 = GoString.ofString "91310000MA1K3L6J4" := by
    have : slice validExampleCode 0 17 = some (GoString.ofString "91310000MA1K3L6J4") := by
      decide
    rw [this] at hs
    exact (Option.some.inj hs).symm
  subst e
  exact ⟨hc, h2.2.2.2.2.2 (by decide)⟩

/-! ## Accepted credit codes -/

theorem ValidateUSCI_match_of_accepted (code : GoString) (h15 : code.length ≠ 15)
    (hacc : ValidateUSCI code = some true) : matchString usciPattern code = true := by
  by_contra hm
  rw [ValidateUSCI_no_match code h15 hm] at hacc
  cases hacc

theorem ValidateUSCI_match_eq (code : GoString) (hlen : code.length = 18)
    (hm : matchString usciPattern code = true) :
    ∃ b16 b17, code[16]? = some b16 ∧ code[17]? = some b17 ∧
      ValidateUSCI code =
        some (decide (b16.toNat = orgExpected ((code.drop 8).take 8)) &&
          decide (b17.toNat = usciExpected (code.take 17))) := by
  obtain ⟨e1, e2, b16, b17, h16, h17, he1, he2, hv⟩ := ValidateUSCI_of_match code hlen hm
  refine ⟨b16, b17, h16, h17, ?_⟩
  rw [hv, orgExpected, usciExpected, ← he1, ← he2]
  congr 1
  rw [Bool.eq_iff_iff]
  simp only [Bool.and_eq_true, beq_iff_eq, decide_eq_true_eq, byte_eq_iff e1, byte_eq_iff e2]
  constructor
  · rintro ⟨h1, h2⟩
    exact ⟨h1.symm, h2.symm⟩
  · rintro ⟨h1, h2⟩
    exact ⟨h1.symm, h2.symm⟩

theorem ValidateUSCI_accepted (code : GoString) (h15 : code.length ≠ 15)
    (hacc : ValidateUSCI code = some true) :
    matchString usciPattern code = true ∧ code.length = 18 ∧
      code.map UInt8.toNat = runes code ∧
      ∃ b16 b17, code[16]? = some b16 ∧ code[17]? = some b17 ∧
        b16.toNat = orgExpected ((code.drop 8).take 8) ∧
        b17.toNat = usciExpected (code.take 17) := by
  have hm := ValidateUSCI_match_of_accepted code h15 hacc
  obtain ⟨_, hlen, hmap⟩ := matchString_usci code hm
  obtain ⟨b16, b17, h16, h17, hv⟩ := ValidateUSCI_match_eq code hlen hm
  rw [hv] at hacc
  simp only [Option.some.injEq, Bool.and_eq_true, decide_eq_true_eq] at hacc
  exact ⟨hm, hlen, hmap, b16, b17, h16, h17, hacc.1, hacc.2⟩

theorem orgExpected_fin : ∀ m : Fin 11,
    (isDigit (alphabet36.getD (remapOrg (11 - (m.val : Int))).toNat 0) ||
      alphabet36.getD (remapOrg (11 - (m.val : Int))).toNat 0 == 'X'.toNat) = true := by
  decide

theorem usciExpected_fin : ∀ m : Fin 31,
    alphabet31.getD (remapUsci (31 - (m.val : Int))).toNat 0 ∈ alphabet31 := by
  decide

theorem orgExpected_class (body : GoString) :
    (isDigit (orgExpected body) || orgExpected body == 'X'.toNat) = true := by
  have h0 : 0 ≤ exactSum organizationCheckCodes body orgFactors % 11 :=
    Int.emod_nonneg _ (by omega)
  have h1 : exactSum organizationCheckCodes body orgFactors % 11 < 11 :=
    Int.emod_lt_of_pos _ (by omega)
  have := orgExpected_fin ⟨(exactSum organizationCheckCodes body orgFactors % 11).toNat,
    by omega⟩
  simp only [Int.toNat_of_nonneg h0] at this
  exact this

theorem usciExpected_mem (first17 : GoString) : usciExpected first17 ∈ alphabet31 := by
  have h0 : 0 ≤ exactSum socialCreditCheckCodes first17 usciFactors % 31 :=
    Int.emod_nonneg _ (by omega)
  have h1 : exactSum socialCreditCheckCodes first17 usciFactors % 31 < 31 :=
    Int.emod_lt_of_pos _ (by omega)
  have := usciExpected_fin ⟨(exactSum socialCreditCheckCodes first17 usciFactors % 31).toNat,
    by omega⟩
  simp only [Int.toNat_of_nonneg h0] at this
  exact this

theorem usciHead_mem (r : List Nat) (tail : Nat → Bool) (h : matchesUSCIPattern tail r)
    (j : Nat) (c : Nat) (hj : j < 8) (hc : r[j]? = some c) : c ∈ alphabet31 := by
  obtain ⟨_, hp, hd, _⟩ := h
  by_cases h2 : j < 2
  · have hmem : c ∈ r.take 2 := (mem_take_iff r 2 c).mpr ⟨j, h2, hc⟩
    have hall : ∀ p ∈ usciPrefixes, ∀ x ∈ p, x ∈ alphabet31 := by decide
    exact hall _ hp c hmem
  · have hmem : c ∈ (r.drop 2).take 6 := (mem_seg_iff r 2 6 c).mpr ⟨j, by omega, by omega, hc⟩
    have hdig := hd c hmem
    have hall : ∀ x : Fin 128, isDigit x.val = true → x.val ∈ alphabet31 := by decide
    have hlt := isDigit_lt c hdig
    exact hall ⟨c, hlt⟩ hdig

theorem digitX_mem : ∀ x : Fin 128,
    (isDigit x.val || x.val == 'X'.toNat) = true → x.val ∈ alphabet31 := by
  decide

theorem wordChar_cases : ∀ x : Fin 128, isWordChar x.val = true →
    x.val ∈ alphabet31 ∨ x.val ∈ excludedLetters ∨ isLower x.val = true ∨
      x.val = '_'.toNat := by
  decide

theorem ValidateUSCI_accepted_chars (code : GoString) (h15 : code.length ≠ 15)
    (hacc : ValidateUSCI code = some true) :
    matchesUSCIPattern isWordChar (runes code) ∧
      (∃ c, (runes code)[16]? = some c ∧ (isDigit c || c == 'X'.toNat) = true) ∧
      ∃ c, (runes code)[17]? = some c ∧ c ∈ alphabet31 := by
  obtain ⟨hm, hlen, hmap, b16, b17, h16, h17, he1, he2⟩ := ValidateUSCI_accepted code h15 hacc
  obtain ⟨hpat, _, _⟩ := matchString_usci code hm
  refine ⟨hpat, ⟨b16.toNat, ?_, ?_⟩, ⟨b17.toNat, ?_, ?_⟩⟩
  · rw [← hmap, List.getElem?_map, h16]
    rfl
  · rw [he1]
    exact orgExpected_class _
  · rw [← hmap, List.getElem?_map, h17]
    rfl
  · rw [he2]
    exact usciExpected_mem _

/-! ## Completion of a credit-code body -/

theorem toNat_ofNat_byte (n : Nat) (h : n < 256) : (UInt8.ofNat n).toNat = n := by
  simp [UInt8.ofNat, UInt8.toNat]
  omega

theorem digitX_word (x : Nat) (h : (isDigit x || x == 'X'.toNat) = true) :
    isWordChar x = true ∧ x < 128 := by
  have hall : ∀ y : Fin 128, (isDigit y.val || y.val == 'X'.toNat) = true →
      isWordChar y.val = true := by decide
  have hlt : x < 128 := by
    simp only [isDigit, Bool.or_eq_true, decide_eq_true_eq, beq_iff_eq] at h
    have e9 : '9'.toNat = 57 := by decide
    have eX : 'X'.toNat = 88 := by decide
    omega
  exact ⟨hall ⟨x, hlt⟩ h, hlt⟩

theorem body_parts (body : GoString) (a b : UInt8) (hl : body.length = 16) :
    ((body ++ [a, b]).drop 8).take 8 = body.drop 8 ∧
      (body ++ [a, b]).take 17 = body ++ [a] ∧
      (body ++ [a, b])[16]? = some a ∧ (body ++ [a, b])[17]? = some b := by
  refine ⟨?_, ?_, ?_, ?_⟩
  · rw [List.drop_append_of_le_length (by omega)]
    exact List.take_left' (by simp [hl])
  · have : (17 : Nat) = body.length + 1 := by omega
    rw [this, List.take_append]
    rfl
  · rw [List.getElem?_append_right (by omega), hl]
    rfl
  · rw [List.getElem?_append_right (by omega), hl]
    rfl

theorem usci_completion (body : GoString) (hlen : (runes body).length = 16)
    (hp : (runes body).take 2 ∈ usciPrefixes)
    (hd : ∀ c ∈ ((runes body).drop 2).take 6, isDigit c = true)
    (hw : ∀ c ∈ (runes body).drop 8, isWordChar c = true) :
    ∃ c17 c18 : UInt8, ∀ t : GoString, ValidateUSCI (body ++ t) = some true ↔ t = [c17, c18] := by
  have hb : ∀ c ∈ runes body, c < 128 := by
    intro c hc
    rw [← List.take_append_drop 2 (runes body), List.mem_append] at hc
    rcases hc with hc | hc
    · exact usciPrefixes_lt _ hp c hc
    · rw [← List.take_append_drop 6 ((runes body).drop 2), List.mem_append, List.drop_drop] at hc
      rcases hc with hc | hc
      · exact isDigit_lt c (hd c hc)
      · exact isWordChar_lt c (hw c hc)
  obtain ⟨hmap, hl⟩ := runes_of_bound body _ rfl hb
  rw [hlen] at hl
  have h1 := digitX_word _ (orgExpected_class (body.drop 8))
  have e1n : (UInt8.ofNat (orgExpected (body.drop 8))).toNat = orgExpected (body.drop 8) :=
    toNat_ofNat_byte _ (by omega)
  generalize UInt8.ofNat (orgExpected (body.drop 8)) = e1 at e1n
  have h2 := alphabet31_word _ (usciExpected_mem (body ++ [e1]))
  have e2n : (UInt8.ofNat (usciExpected (body ++ [e1]))).toNat = usciExpected (body ++ [e1]) :=
    toNat_ofNat_byte _ (by omega)
  generalize UInt8.ofNat (usciExpected (body ++ [e1])) = e2 at e2n
  refine ⟨e1, e2, ?_⟩
  intro t
  constructor
  · intro hacc
    obtain ⟨_, hlen18, _, b16, b17, h16, h17, he1, he2⟩ :=
      ValidateUSCI_accepted (body ++ t) (by simp [hl]; omega) hacc
    have ht : t.length = 2 := by
      simp only [List.length_append] at hlen18
      omega
    match t, ht with
    | [a, b], _ =>
      obtain ⟨p1, p2, p3, p4⟩ := body_parts body a b hl
      rw [p3] at h16
      rw [p4] at h17
      rw [p1] at he1
      rw [p2] at he2
      have ea : a = b16 := Option.some.inj h16
      have eb : b = b17 := Option.some.inj h17
      have hae : a = e1 := UInt8.ext (by rw [ea, he1, e1n])
      subst hae
      have hbe : b = e2 := UInt8.ext (by rw [eb, he2, e2n])
      rw [hbe]
  · intro ht
    subst ht
    obtain ⟨p1, p2, p3, p4⟩ := body_parts body e1 e2 hl
    have hascii : ∀ x ∈ body ++ [e1, e2], x.toNat < 128 := by
      intro x hx
      rcases List.mem_append.mp hx with hx | hx
      · apply hb
        rw [← hmap]
        exact List.mem_map_of_mem _ hx
      · simp only [List.mem_cons, List.mem_singleton, List.not_mem_nil, or_false] at hx
        rcases hx with rfl | rfl
        · rw [e1n]
          exact h1.2
        · rw [e2n]
          exact h2.2
    have hr : runes (body ++ [e1, e2]) = runes body ++ [e1.toNat, e2.toNat] := by
      rw [runes_eq_map _ hascii, List.map_append, hmap]
      rfl
    have hm : matchString usciPattern (body ++ [e1, e2]) = true := by
      rw [matchString_iff, usciPattern_run, hr]
      refine ⟨by simp [hlen], ?_, ?_, ?_⟩
      · rw [List.take_append_of_le_length (by omega)]
        exact hp
      · rw [List.drop_append_of_le_length (by omega),
          List.take_append_of_le_length (by simp [hlen])]
        exact hd
      · rw [List.drop_append_of_le_length (by omega)]
        intro c hc
        rcases List.mem_append.mp hc with hc | hc
        · exact hw c hc
        · simp only [List.mem_cons, List.mem_singleton, List.not_mem_nil, or_false] at hc
          rcases hc with rfl | rfl
          · rw [e1n]
            exact h1.1
          · rw [e2n]
            exact h2.1
    obtain ⟨b16, b17, h16, h17, hv⟩ :=
      ValidateUSCI_match_eq (body ++ [e1, e2]) (by simp [hl]) hm
    rw [p3] at h16
    rw [p4] at h17
    have ea : e1 = b16 := Option.some.inj h16
    have eb : e2 = b17 := Option.some.inj h17
    rw [hv, p1, p2, ← ea, ← eb, e1n, e2n]
    simp

/-! ## Substitution of one character in a credit code -/

theorem exactSum_set (checkCodes : List (String × Int)) :
    ∀ (code : GoString) (factors : List Int) (i : Nat) (x : UInt8) (hi : i < code.length)
      (hf : i < factors.length),
      exactSum checkCodes (code.set i x) factors =
        exactSum checkCodes code factors +
          (charWeight checkCodes x - charWeight checkCodes code[i]) * factors[i] := by
  intro code
  induction code with
  | nil =>
    intro factors i x hi
    simp at hi
  | cons b rest ih =>
    intro factors i x hi hf
    cases factors with
    | nil => simp at hf
    | cons f fs =>
      cases i with
      | zero =>
        simp only [exactSum, List.set_cons_zero, List.zipWith_cons_cons, List.sum_cons,
          List.getElem_cons_zero]
        ring
      | succ i =>
        have ih' := ih fs i x (by simpa using hi) (by simpa using hf)
        simp only [exactSum, List.set_cons_succ, List.zipWith_cons_cons, List.sum_cons,
          List.getElem_cons_succ] at ih' ⊢
        rw [ih']
        ring

theorem usci_nozero : ∀ f ∈ usciFactors, ∀ d : Fin 61, (d.val : Int) - 30 ≠ 0 →
    (((d.val : Int) - 30) * f) % 31 ≠ 0 := by
  decide

theorem org_nozero : ∀ f ∈ orgFactors, ∀ d : Fin 71, ((d.val : Int) - 35) % 11 ≠ 0 →
    (((d.val : Int) - 35) * f) % 11 ≠ 0 := by
  decide

theorem usciExpected_inj_fin : ∀ a b : Fin 31,
    alphabet31.getD (remapUsci (31 - (a.val : Int))).toNat 0 =
      alphabet31.getD (remapUsci (31 - (b.val : Int))).toNat 0 → a = b := by
  decide

theorem orgExpected_inj_fin : ∀ a b : Fin 11,
    alphabet36.getD (remapOrg (11 - (a.val : Int))).toNat 0 =
      alphabet36.getD (remapOrg (11 - (b.val : Int))).toNat 0 → a = b := by
  decide

theorem usciExpected_inj (s t : GoString) (h : usciExpected s = usciExpected t) :
    exactSum socialCreditCheckCodes s usciFactors % 31 =
      exactSum socialCreditCheckCodes t usciFactors % 31 := by
  have s0 := Int.emod_nonneg (exactSum socialCreditCheckCodes s usciFactors)
    (show (31 : Int) ≠ 0 by omega)
  have s1 := Int.emod_lt_of_pos (exactSum socialCreditCheckCodes s usciFactors)
    (show (0 : Int) < 31 by omega)
  have t0 := Int.emod_nonneg (exactSum socialCreditCheckCodes t usciFactors)
    (show (31 : Int) ≠ 0 by omega)
  have t1 := Int.emod_lt_of_pos (exactSum socialCreditCheckCodes t usciFactors)
    (show (0 : Int) < 31 by omega)
  have := usciExpected_inj_fin
    ⟨(exactSum socialCreditCheckCodes s usciFactors % 31).toNat, by omega⟩
    ⟨(exactSum socialCreditCheckCodes t usciFactors % 31).toNat, by omega⟩
  simp only [Int.toNat_of_nonneg s0, Int.toNat_of_nonneg t0, Fin.mk.injEq] at this
  have e := this h
  omega

theorem orgExpected_inj (s t : GoString) (h : orgExpected s = orgExpected t) :
    exactSum organizationCheckCodes s orgFactors % 11 =
      exactSum organizationCheckCodes t orgFactors % 11 := by
  have s0 := Int.emod_nonneg (exactSum organizationCheckCodes s orgFactors)
    (show (11 : Int) ≠ 0 by omega)
  have s1 := Int.emod_lt_of_pos (exactSum organizationCheckCodes s orgFactors)
    (show (0 : Int) < 11 by omega)
  have t0 := Int.emod_nonneg (exactSum organizationCheckCodes t orgFactors)
    (show (11 : Int) ≠ 0 by omega)
  have t1 := Int.emod_lt_of_pos (exactSum organizationCheckCodes t orgFactors)
    (show (0 : Int) < 11 by omega)
  have := orgExpected_inj_fin
    ⟨(exactSum organizationCheckCodes s orgFactors % 11).toNat, by omega⟩
    ⟨(exactSum organizationCheckCodes t orgFactors % 11).toNat, by omega⟩
  simp only [Int.toNat_of_nonneg s0, Int.toNat_of_nonneg t0, Fin.mk.injEq] at this
  have e := this h
  omega

theorem ValidateUSCI_rejected_of (code : GoString) (hlen : code.length = 18)
    (h : ∀ b16 b17, code[16]? = some b16 → code[17]? = some b17 →
      ¬ (b16.toNat = orgExpected ((code.drop 8).take 8) ∧
        b17.toNat = usciExpected (code.take 17))) :
    ValidateUSCI code = some false := by
  by_cases hm : matchString usciPattern code = true
  · obtain ⟨b16, b17, h16, h17, hv⟩ := ValidateUSCI_match_eq code hlen hm
    rw [hv]
    have := h b16 b17 h16 h17
    congr 1
    rw [Bool.eq_false_iff]
    intro hcon
    simp only [Bool.and_eq_true, decide_eq_true_eq] at hcon
    exact this hcon
  · exact ValidateUSCI_no_match code (by omega) hm

theorem usci_nozero_int (f d : Int) (hf : f ∈ usciFactors) (h1 : -30 ≤ d) (h2 : d ≤ 30)
    (h0 : d ≠ 0) : (d * f) % 31 ≠ 0 := by
  have hz := usci_nozero f hf ⟨(d + 30).toNat, by omega⟩
  have e : (((⟨(d + 30).toNat, by omega⟩ : Fin 61).val : Nat) : Int) - 30 = d := by
    show (((d + 30).toNat : Nat) : Int) - 30 = d
    omega
  rw [e] at hz
  exact hz h0

theorem org_nozero_int (f d : Int) (hf : f ∈ orgFactors) (h1 : -35 ≤ d) (h2 : d ≤ 35)
    (h0 : d % 11 ≠ 0) : (d * f) % 11 ≠ 0 := by
  have hz := org_nozero f hf ⟨(d + 35).toNat, by omega⟩
  have e : (((⟨(d + 35).toNat, by omega⟩ : Fin 71).val : Nat) : Int) - 35 = d := by
    show (((d + 35).toNat : Nat) : Int) - 35 = d
    omega
  rw [e] at hz
  exact hz h0

theorem mod_of_add (S P : Int) (m : Int) (h : (S + P) % m = S % m) :
    P % m = 0 := by
  have h1 : (S + P - S) % m = 0 := by
    rw [Int.sub_emod, h]
    simp
  have e : S + P - S = P := by omega
  rw [e] at h1
  exact h1

theorem subst_overall (code : GoString) (hlen : code.length = 18)
    (hacc : ValidateUSCI code = some true) (i : Nat) (hi : i < code.length) (hi17 : i < 17)
    (x : UInt8)
    (hw : charWeight socialCreditCheckCodes x ≠ charWeight socialCreditCheckCodes code[i]) :
    ValidateUSCI (code.set i x) = some false := by
  obtain ⟨_, _, _, b16, b17, h16, h17, he1, he2⟩ := ValidateUSCI_accepted code (by omega) hacc
  apply ValidateUSCI_rejected_of _ (by simp [hlen])
  intro c16 c17 _ hc17 hcon
  rw [List.getElem?_set_ne (by omega), h17] at hc17
  have e17 : b17 = c17 := Option.some.inj hc17
  have heq : usciExpected ((code.set i x).take 17) = usciExpected (code.take 17) := by
    rw [← hcon.2, ← he2, e17]
  have hmod := usciExpected_inj _ _ heq
  have hit : i < (code.take 17).length := by
    rw [List.length_take]
    omega
  have hif : i < usciFactors.length := by
    have : usciFactors.length = 17 := rfl
    omega
  rw [List.set_take, exactSum_set _ _ _ i x hit hif] at hmod
  have hget : (code.take 17)[i] = code[i] := List.getElem_take _
  rw [hget] at hmod
  have hb1 := charWeight_usci_bounds x
  have hb2 := charWeight_usci_bounds code[i]
  have hP := mod_of_add _ _ 31 hmod
  exact usci_nozero_int usciFactors[i] _ (List.getElem_mem _) (by omega) (by omega)
    (by omega) hP

theorem body_getElem (code : GoString) (i : Nat) (hi : i < code.length) (h8 : 8 ≤ i)
    (h16 : i < 16) (hb : i - 8 < ((code.drop 8).take 8).length) :
    ((code.drop 8).take 8)[i - 8] = code[i] := by
  have h1 : ((code.drop 8).take 8)[i - 8]? = code[i]? := by
    rw [List.getElem?_take, if_pos (by omega), List.getElem?_drop]
    congr 1
    omega
  rw [List.getElem?_eq_getElem hb, List.getElem?_eq_getElem hi] at h1
  exact Option.some.inj h1

theorem subst_org (code : GoString) (hlen : code.length = 18)
    (hacc : ValidateUSCI code = some true) (i : Nat) (hi : i < code.length) (h8 : 8 ≤ i)
    (hi16 : i < 16) (x : UInt8)
    (hw : (charWeight organizationCheckCodes x -
      charWeight organizationCheckCodes code[i]) % 11 ≠ 0) :
    ValidateUSCI (code.set i x) = some false := by
  obtain ⟨_, _, _, b16, b17, h16, h17, he1, he2⟩ := ValidateUSCI_accepted code (by omega) hacc
  apply ValidateUSCI_rejected_of _ (by simp [hlen])
  intro c16 c17 hc16 _ hcon
  rw [List.getElem?_set_ne (by omega), h16] at hc16
  have e16 : b16 = c16 := Option.some.inj hc16
  have hbody : ((code.set i x).drop 8).take 8 = ((code.drop 8).take 8).set (i - 8) x := by
    rw [List.drop_set, if_neg (by omega), List.set_take]
  have heq : orgExpected (((code.drop 8).take 8).set (i - 8) x) =
      orgExpected ((code.drop 8).take 8) := by
    rw [← hbody, ← hcon.1, ← he1, e16]
  have hmod := orgExpected_inj _ _ heq
  have hit : i - 8 < ((code.drop 8).take 8).length := by
    rw [List.length_take, List.length_drop]
    omega
  have hif : i - 8 < orgFactors.length := by
    have : orgFactors.length = 8 := rfl
    omega
  rw [exactSum_set _ _ _ (i - 8) x hit hif, body_getElem code i hi h8 hi16 hit] at hmod
  have hb1 := charWeight_org_bounds x
  have hb2 := charWeight_org_bounds code[i]
  have hP := mod_of_add _ _ 11 hmod
  exact org_nozero_int orgFactors[i - 8] _ (List.getElem_mem _) (by omega) (by omega) hw hP

theorem subst_16 (code : GoString) (hlen : code.length = 18)
    (hacc : ValidateUSCI code = some true) (x : UInt8) (hx : code[16]? ≠ some x) :
    ValidateUSCI (code.set 16 x) = some false := by
  obtain ⟨_, _, _, b16, b17, h16, h17, he1, he2⟩ := ValidateUSCI_accepted code (by omega) hacc
  apply ValidateUSCI_rejected_of _ (by simp [hlen])
  intro c16 c17 hc16 _ hcon
  rw [List.getElem?_set_self (by omega)] at hc16
  have e16 : x = c16 := Option.some.inj hc16
  have hbody : ((code.set 16 x).drop 8).take 8 = (code.drop 8).take 8 := by
    rw [List.drop_set, if_neg (by omega), List.set_take,
      List.set_eq_of_length_le (by simp [hlen])]
  apply hx
  rw [h16]
  congr 1
  apply UInt8.ext
  rw [he1, e16, hcon.1, hbody]

theorem subst_17 (code : GoString) (hlen : code.length = 18)
    (hacc : ValidateUSCI code = some true) (x : UInt8) (hx : code[17]? ≠ some x) :
    ValidateUSCI (code.set 17 x) = some false := by
  obtain ⟨_, _, _, b16, b17, h16, h17, he1, he2⟩ := ValidateUSCI_accepted code (by omega) hacc
  apply ValidateUSCI_rejected_of _ (by simp [hlen])
  intro c16 c17 _ hc17 hcon
  rw [List.getElem?_set_self (by omega)] at hc17
  have e17 : x = c17 := Option.some.inj hc17
  have hfirst : (code.set 17 x).take 17 = code.take 17 := by
    rw [List.set_take, List.set_eq_of_length_le (by simp [hlen])]
  apply hx
  rw [h17]
  congr 1
  apply UInt8.ext
  rw [he2, e17, hcon.2, hfirst]

theorem w31_inj : ∀ a ∈ alphabet31, ∀ b ∈ alphabet31, w31 a = w31 b → a = b := by
  decide

theorem charWeight_ne_of_alphabet (x c : UInt8) (hx : x.toNat ∈ alphabet31)
    (hc : c.toNat ∈ alphabet31) (hne : x ≠ c) :
    charWeight socialCreditCheckCodes x ≠ charWeight socialCreditCheckCodes c := by
  rw [(charWeight_alphabet x hx).2, (charWeight_alphabet c hc).2]
  intro h
  have h' : w31 x.toNat = w31 c.toNat := by exact_mod_cast h
  exact hne (UInt8.ext (w31_inj _ hx _ hc h'))

theorem subst_head (code : GoString) (hlen : code.length = 18)
    (hacc : ValidateUSCI code = some true) (i : Nat) (hi : i < code.length) (hi8 : i < 8)
    (x : UInt8) (hx : x ≠ code[i]) :
    ValidateUSCI (code.set i x) = some false := by
  by_cases hm : matchString usciPattern (code.set i x) = true
  · obtain ⟨hpat, _, hmap⟩ := matchString_usci _ hm
    obtain ⟨hm0, _, hmap0, _⟩ := ValidateUSCI_accepted code (by omega) hacc
    obtain ⟨hpat0, _, _⟩ := matchString_usci _ hm0
    have hxa : x.toNat ∈ alphabet31 := by
      apply usciHead_mem _ _ hpat i _ hi8
      rw [← hmap, List.getElem?_map, List.getElem?_set_self hi]
      rfl
    have hca : code[i].toNat ∈ alphabet31 := by
      apply usciHead_mem _ _ hpat0 i _ hi8
      rw [← hmap0, List.getElem?_map, List.getElem?_eq_getElem hi]
      rfl
    exact subst_overall code hlen hacc i hi (by omega) x
      (charWeight_ne_of_alphabet _ _ hxa hca hx)
  · exact ValidateUSCI_no_match _ (by simp [hlen]) hm

theorem runesFuel_length_le : ∀ (n : Nat) (s : GoString), (runesFuel n s).length ≤ s.length := by
  intro n
  induction n with
  | zero =>
    intro s
    simp [runesFuel]
  | succ n ih =>
    intro s
    cases s with
    | nil => simp [runesFuel]
    | cons b rest =>
      have hw := decodeRune_width b rest
      have := ih ((b :: rest).drop (decodeRune (b :: rest)).2)
      simp only [runesFuel, List.length_cons, List.length_drop] at this ⊢
      omega

theorem runes_length_le (s : GoString) : (runes s).length ≤ s.length :=
  runesFuel_length_le _ s

theorem ValidateUSCI_length_rejected (s : GoString) (h15 : s.length ≠ 15)
    (h18 : s.length ≠ 18) : ValidateUSCI s = some false := by
  apply ValidateUSCI_no_match s h15
  intro hm
  exact h18 (matchString_usci s hm).2.1

theorem accepted_length (code : GoString) (hlen : (runes code).length = 18)
    (hacc : ValidateUSCI code = some true) : code.length = 18 := by
  have := runes_length_le code
  exact (ValidateUSCI_accepted code (by omega) hacc).2.1

/-! ## Accepted identity-card numbers -/

theorem ValidateIDCard_accepted (code : GoString) (hacc : ValidateIDCard code = some true) :
    matchesIDCardPattern (runes code) ∧ code.map UInt8.toNat = runes code ∧
      code.length = 18 ∧
      ∃ b17, code[17]? = some b17 ∧
        b17.toNat = idCheckChar ((code.take 17).map UInt8.toNat) := by
  by_cases hm : matchString idCardPattern code = true
  · obtain ⟨hpat, hmap, b17, h17, hv⟩ := ValidateIDCard_of_match code hm
    rw [hv] at hacc
    simp only [Option.some.injEq, decide_eq_true_eq] at hacc
    have hl : code.length = 18 := by
      have := congrArg List.length hmap
      rw [List.length_map, hpat.1] at this
      exact this
    exact ⟨hpat, hmap, hl, b17, h17, hacc⟩
  · have hv : ValidateIDCard code = some false := by simp [ValidateIDCard, hm]
    rw [hv] at hacc
    cases hacc

theorem ValidateIDCard_rejected_of (code : GoString)
    (h : ¬ ValidateIDCard code = some true) : ValidateIDCard code = some false := by
  obtain ⟨b, hb⟩ := ValidateIDCard_total code
  cases b with
  | false => exact hb
  | true => exact absurd hb h

theorem idPattern_digit (r : List Nat) (h : matchesIDCardPattern r) (j c : Nat)
    (hj : j < 17) (hc : r[j]? = some c) : isDigit c = true := by
  obtain ⟨_, hnz, hd, _⟩ := h
  by_cases h0 : j < 1
  · have := hnz c ((mem_take_iff r 1 c).mpr ⟨j, h0, hc⟩)
    simp only [isNonzeroDigit, isDigit, decide_eq_true_eq] at this ⊢
    have e0 : '0'.toNat = 48 := by decide
    have e1 : '1'.toNat = 49 := by decide
    omega
  · apply hd
    rw [List.drop_take, mem_seg_iff]
    exact ⟨j, by omega, by omega, hc⟩

theorem weightedSum_set (w : Nat → Nat) : ∀ (cs fs : List Nat) (i y : Nat)
    (hi : i < cs.length) (hf : i < fs.length),
    weightedSum w (cs.set i y) fs + w cs[i] * fs[i] = weightedSum w cs fs + w y * fs[i] := by
  intro cs
  induction cs with
  | nil =>
    intro fs i y hi
    simp at hi
  | cons c rest ih =>
    intro fs i y hi hf
    cases fs with
    | nil => simp at hf
    | cons f fs =>
      cases i with
      | zero =>
        simp only [weightedSum, List.set_cons_zero, List.zipWith_cons_cons, List.sum_cons,
          List.getElem_cons_zero]
        omega
      | succ i =>
        have ih' := ih fs i y (by simpa using hi) (by simpa using hf)
        simp only [weightedSum, List.set_cons_succ, List.zipWith_cons_cons, List.sum_cons,
          List.getElem_cons_succ] at ih' ⊢
        omega

theorem idTable_inj : ∀ a b : Fin 11, idTable.getD a.val 0 = idTable.getD b.val 0 → a = b := by
  decide

theorem idCheckChar_inj (s t : List Nat) (h : idCheckChar s = idCheckChar t) :
    weightedSum (fun c => c - '0'.toNat) s idFactorsNat % 11 =
      weightedSum (fun c => c - '0'.toNat) t idFactorsNat % 11 := by
  have := idTable_inj
    ⟨weightedSum (fun c => c - '0'.toNat) s idFactorsNat % 11, Nat.mod_lt _ (by omega)⟩
    ⟨weightedSum (fun c => c - '0'.toNat) t idFactorsNat % 11, Nat.mod_lt _ (by omega)⟩ h
  exact Fin.mk.inj this

theorem id_nozero : ∀ f ∈ idFactorsNat, ∀ d e : Fin 10,
    (d.val * f) % 11 = (e.val * f) % 11 → d = e := by
  decide

theorem digit_value (c : Nat) (h : isDigit c = true) :
    c - '0'.toNat < 10 ∧ c = (c - '0'.toNat) + 48 := by
  simp only [isDigit, decide_eq_true_eq] at h
  have e0 : '0'.toNat = 48 := by decide
  have e9 : '9'.toNat = 57 := by decide
  omega

theorem first17_set (code : GoString) (i : Nat) (x : UInt8) :
    ((code.set i x).take 17).map UInt8.toNat =
      ((code.take 17).map UInt8.toNat).set i x.toNat := by
  rw [List.set_take, List.map_set]

theorem id_subst_first (code : GoString) (hacc : ValidateIDCard code = some true) (i : Nat)
    (hi : i < code.length) (hi17 : i < 17) (x : UInt8) (hne : x ≠ code[i]) :
    ValidateIDCard (code.set i x) = some false := by
  apply ValidateIDCard_rejected_of
  intro hacc2
  obtain ⟨hpat, hmap, hlen, b17, h17, he⟩ := ValidateIDCard_accepted code hacc
  obtain ⟨hpat2, hmap2, _, c17, hc17, he2⟩ := ValidateIDCard_accepted _ hacc2
  rw [List.getElem?_set_ne (by omega), h17] at hc17
  have e17 : b17 = c17 := Option.some.inj hc17
  rw [first17_set, ← e17, he] at he2
  have hmod := idCheckChar_inj _ _ he2
  have hit : i < ((code.take 17).map UInt8.toNat).length := by
    rw [List.length_map, List.length_take]
    omega
  have hif : i < idFactorsNat.length := by
    have : idFactorsNat.length = 17 := rfl
    omega
  have hset := weightedSum_set (fun c => c - '0'.toNat) ((code.take 17).map UInt8.toNat)
    idFactorsNat i x.toNat hit hif
  have hget : ((code.take 17).map UInt8.toNat)[i] = code[i].toNat := by
    simp
  rw [hget] at hset
  have hd0 := digit_value code[i].toNat (idPattern_digit _ hpat i _ hi17 (by
    rw [← hmap, List.getElem?_map, List.getElem?_eq_getElem hi]
    rfl))
  have hd1 := digit_value x.toNat (idPattern_digit _ hpat2 i _ hi17 (by
    rw [← hmap2, List.getElem?_map, List.getElem?_set_self hi]
    rfl))
  generalize hW : weightedSum (fun c => c - '0'.toNat)
    (((code.take 17).map UInt8.toNat).set i x.toNat) idFactorsNat = W2 at hset hmod
  generalize hW0 : weightedSum (fun c => c - '0'.toNat)
    ((code.take 17).map UInt8.toNat) idFactorsNat = W at hset hmod
  have hz := id_nozero idFactorsNat[i] (List.getElem_mem _)
    ⟨code[i].toNat - '0'.toNat, hd0.1⟩ ⟨x.toNat - '0'.toNat, hd1.1⟩
  simp only [Fin.mk.injEq] at hz
  generalize (code[i].toNat - '0'.toNat) * idFactorsNat[i] = P at hset hz
  generalize (x.toNat - '0'.toNat) * idFactorsNat[i] = Q at hset hz
  have hdd := hz (by omega)
  apply hne
  apply UInt8.ext
  omega

theorem id_subst_last (code : GoString) (hacc : ValidateIDCard code = some true)
    (x : UInt8) (hne : code[17]? ≠ some x) :
    ValidateIDCard (code.set 17 x) = some false := by
  apply ValidateIDCard_rejected_of
  intro hacc2
  obtain ⟨hpat, hmap, hlen, b17, h17, he⟩ := ValidateIDCard_accepted code hacc
  obtain ⟨hpat2, hmap2, _, c17, hc17, he2⟩ := ValidateIDCard_accepted _ hacc2
  rw [List.getElem?_set_self (by omega)] at hc17
  have e17 : x = c17 := Option.some.inj hc17
  have hfirst : (code.set 17 x).take 17 = code.take 17 := by
    rw [List.set_take, List.set_eq_of_length_le (by simp [hlen])]
  rw [hfirst, ← he] at he2
  apply hne
  rw [h17, e17]
  congr 1
  exact UInt8.ext he2.symm

/-! ## Adjacent transpositions in an identity-card number -/

theorem id_adjacent_fin : ∀ i : Fin 16, ∀ d e : Fin 10,
    (e.val * idFactorsNat.getD (i.val + 1) 0 + d.val * idFactorsNat.getD i.val 0) % 11 =
      (e.val * idFactorsNat.getD i.val 0 + d.val * idFactorsNat.getD (i.val + 1) 0) % 11 →
    d = e := by
  decide

theorem id_adjacent (i d e f g : Nat) (hi : i < 16) (hd : d < 10) (he : e < 10)
    (hf : idFactorsNat[i]? = some f) (hg : idFactorsNat[i + 1]? = some g)
    (h : (e * g + d * f) % 11 = (e * f + d * g) % 11) : d = e := by
  have hz := id_adjacent_fin ⟨i, hi⟩ ⟨d, hd⟩ ⟨e, he⟩
  have e1 : idFactorsNat.getD i 0 = f := by
    rw [List.getD_eq_getElem?_getD, hf]
    rfl
  have e2 : idFactorsNat.getD (i + 1) 0 = g := by
    rw [List.getD_eq_getElem?_getD, hg]
    rfl
  have hz2 : (e * idFactorsNat.getD (i + 1) 0 + d * idFactorsNat.getD i 0) % 11 =
      (e * idFactorsNat.getD i 0 + d * idFactorsNat.getD (i + 1) 0) % 11 → d = e := by
    intro h2
    exact Fin.mk.inj (hz h2)
  rw [e1, e2] at hz2
  exact hz2 h

theorem id_last_fin : ∀ a : Fin 11, ∀ d k : Fin 10,
    k.val + 48 = idTable.getD a.val 0 →
      d.val + 48 = idTable.getD ((a.val + 2 * k.val + 9 * d.val) % 11) 0 → d = k := by
  decide

theorem id_last (a d k : Nat) (ha : a < 11) (hd : d < 10) (hk : k < 10)
    (h1 : k + 48 = idTable.getD a 0)
    (h2 : d + 48 = idTable.getD ((a + 2 * k + 9 * d) % 11) 0) : d = k :=
  Fin.mk.inj (id_last_fin ⟨a, ha⟩ ⟨d, hd⟩ ⟨k, hk⟩ h1 h2)

theorem arith_swap (W W1 W2 P0f P1f P0g P1g : Nat) (h1 : W1 + P0f = W + P1f)
    (h2 : W2 + P1g = W1 + P0g) (hmod : W2 % 11 = W % 11) :
    (P1g + P0f) % 11 = (P1f + P0g) % 11 := by
  omega

theorem arith_last (W W2 d k : Nat) (hset : W2 + d * 2 = W + k * 2) :
    (W % 11 + 2 * k + 9 * d) % 11 = W2 % 11 := by
  omega

theorem digit_eq (a b z : Nat) (ha : a = a - z + 48) (hb : b = b - z + 48)
    (h : a - z = b - z) : a = b := by
  omega


theorem idCheckChar_eq (s : List Nat) :
    idCheckChar s =
      idTable.getD (weightedSum (fun c => c - '0'.toNat) s idFactorsNat % 11) 0 :=
  rfl

theorem weightedSum_set_opt (w : Nat → Nat) (cs fs : List Nat) (i y c f : Nat)
    (hc : cs[i]? = some c) (hf : fs[i]? = some f) :
    weightedSum w (cs.set i y) fs + w c * f = weightedSum w cs fs + w y * f := by
  obtain ⟨hi, rfl⟩ := List.getElem?_eq_some.mp hc
  obtain ⟨hj, rfl⟩ := List.getElem?_eq_some.mp hf
  exact weightedSum_set w cs fs i y hi hj

theorem first17_getElem? (code : GoString) (i : Nat) (hi : i < 17) (c : UInt8)
    (hc : code[i]? = some c) : ((code.take 17).map UInt8.toNat)[i]? = some c.toNat := by
  rw [List.getElem?_map, List.getElem?_take, if_pos hi, hc]
  rfl

theorem id_swap_core (code : GoString) (hacc : ValidateIDCard code = some true) (i : Nat)
    (hi16 : i < 16) (c0 c1 : UInt8) (h0 : code[i]? = some c0) (h1 : code[i + 1]? = some c1)
    (hne : c0 ≠ c1) :
    ValidateIDCard ((code.set i c1).set (i + 1) c0) = some false := by
  apply ValidateIDCard_rejected_of
  intro hacc2
  obtain ⟨hpat, hmap, hlen, b17, h17, he⟩ := ValidateIDCard_accepted code hacc
  obtain ⟨hpat2, hmap2, _, c17, hc17, he2⟩ := ValidateIDCard_accepted _ hacc2
  have hn1 : i + 1 ≠ 17 := by omega
  have hn0 : i ≠ 17 := by omega
  rw [List.getElem?_set_ne hn1, List.getElem?_set_ne hn0, h17] at hc17
  have e17 : b17 = c17 := Option.some.inj hc17
  rw [first17_set, first17_set, ← e17, he] at he2
  have hmod := (idCheckChar_inj _ _ he2).symm
  have hd0 := digit_value c0.toNat (idPattern_digit _ hpat i _ (Nat.lt_trans hi16 (by decide))
    (by rw [← hmap, List.getElem?_map, h0]; rfl))
  have hd1 := digit_value c1.toNat (idPattern_digit _ hpat (i + 1) _ (Nat.succ_lt_succ hi16)
    (by rw [← hmap, List.getElem?_map, h1]; rfl))
  have hfl : idFactorsNat.length = 17 := rfl
  have hf1 : i < idFactorsNat.length := by
    rw [hfl]
    exact Nat.lt_trans hi16 (by decide)
  have hf2 : i + 1 < idFactorsNat.length := by
    rw [hfl]
    exact Nat.succ_lt_succ hi16
  obtain ⟨f, hf⟩ : ∃ f, idFactorsNat[i]? = some f := ⟨_, List.getElem?_eq_getElem hf1⟩
  obtain ⟨g, hg⟩ : ∃ g, idFactorsNat[i + 1]? = some g := ⟨_, List.getElem?_eq_getElem hf2⟩
  clear hf1 hf2 hfl
  have hs1 := first17_getElem? code i (Nat.lt_trans hi16 (by decide)) c0 h0
  have hs2 : (((code.take 17).map UInt8.toNat).set i c1.toNat)[i + 1]? = some c1.toNat := by
    rw [List.getElem?_set_ne (Nat.ne_of_lt (Nat.lt_succ_self i))]
    exact first17_getElem? code (i + 1) (Nat.succ_lt_succ hi16) c1 h1
  have hset1 := weightedSum_set_opt (fun c => c - '0'.toNat) _ _ i c1.toNat _ _ hs1 hf
  have hset2 := weightedSum_set_opt (fun c => c - '0'.toNat) _ _ (i + 1) c0.toNat _ _ hs2 hg
  have hz := id_adjacent i (c0.toNat - '0'.toNat) (c1.toNat - '0'.toNat) f g hi16 hd0.1 hd1.1
    hf hg (arith_swap _ _ _ _ _ _ _ hset1 hset2 hmod)
  exact hne (UInt8.ext (digit_eq _ _ _ hd0.2 hd1.2 hz))

theorem id_swap_inner (code : GoString) (hacc : ValidateIDCard code = some true) (i : Nat)
    (hi : i + 1 < code.length) (hi16 : i < 16) (hne : code[i] ≠ code[i + 1]) :
    ValidateIDCard ((code.set i code[i + 1]).set (i + 1) code[i]) = some false :=
  id_swap_core code hacc i hi16 _ _ (List.getElem?_eq_getElem _) (List.getElem?_eq_getElem _)
    hne

theorem id_swap_last_core (code : GoString) (hacc : ValidateIDCard code = some true)
    (c0 c1 : UInt8) (h0 : code[16]? = some c0) (h1 : code[17]? = some c1) (hne : c0 ≠ c1) :
    ValidateIDCard ((code.set 16 c1).set 17 c0) = some false := by
  apply ValidateIDCard_rejected_of
  intro hacc2
  obtain ⟨hpat, hmap, hlen, b17, h17, he⟩ := ValidateIDCard_accepted code hacc
  obtain ⟨hpat2, hmap2, _, c17, hc17, he2⟩ := ValidateIDCard_accepted _ hacc2
  have hl2 : 17 < (code.set 16 c1).length := by
    rw [List.length_set, hlen]
    decide
  rw [List.getElem?_set_self hl2] at hc17
  have e17 : c0 = c17 := Option.some.inj hc17
  rw [h17] at h1
  have eb : b17 = c1 := Option.some.inj h1
  have hfirst : ((code.set 16 c1).set 17 c0).take 17 = (code.take 17).set 16 c1 := by
    rw [List.set_take, List.set_take, List.set_eq_of_length_le]
    rw [List.length_set, List.length_take, hlen]
    decide
  rw [hfirst, List.map_set, ← e17, idCheckChar_eq] at he2
  rw [eb, idCheckChar_eq] at he
  have hd0 := digit_value c0.toNat (idPattern_digit _ hpat 16 _ (by decide)
    (by rw [← hmap, List.getElem?_map, h0]; rfl))
  have hl1 : 16 < code.length := by
    rw [hlen]
    decide
  have hd1 := digit_value c1.toNat (idPattern_digit _ hpat2 16 _ (by decide)
    (by
      rw [← hmap2, List.getElem?_map, List.getElem?_set_ne (by decide),
        List.getElem?_set_self hl1]
      rfl))
  have hs := first17_getElem? code 16 (by decide) c0 h0
  have hf : idFactorsNat[16]? = some 2 := rfl
  have hset := weightedSum_set_opt (fun c => c - '0'.toNat) _ _ 16 c1.toNat _ _ hs hf
  have hidx := arith_last _ _ (c0.toNat - '0'.toNat) (c1.toNat - '0'.toNat) hset
  rw [hd1.2] at he
  rw [hd0.2, ← hidx] at he2
  have hdd := id_last _ (c0.toNat - '0'.toNat) (c1.toNat - '0'.toNat)
    (Nat.mod_lt _ (Nat.succ_pos _)) hd0.1 hd1.1 he he2
  exact hne (UInt8.ext (digit_eq _ _ _ hd0.2 hd1.2 hdd))

theorem id_swap_last (code : GoString) (hacc : ValidateIDCard code = some true)
    (h : 17 < code.length) (hne : code[16] ≠ code[17]) :
    ValidateIDCard ((code.set 16 code[17]).set 17 code[16]) = some false :=
  id_swap_last_core code hacc _ _ (List.getElem?_eq_getElem _) (List.getElem?_eq_getElem _)
    hne

/-! ## The identity-card check as ISO 7064 MOD 11-2 -/

theorem isoWeights_eq : isoWeights =
    [131072, 65536, 32768, 16384, 8192, 4096, 2048, 1024, 512, 256, 128, 64, 32, 16, 8, 4, 2]
      ++ [1] := by
  decide

theorem isoWeights_mod : List.Forall₂ (fun g f => g % 11 = f % 11)
    [131072, 65536, 32768, 16384, 8192, 4096, 2048, 1024, 512, 256, 128, 64, 32, 16, 8, 4, 2]
    idFactorsNat := by
  unfold idFactorsNat
  repeat first | exact List.Forall₂.nil | apply List.Forall₂.cons (by decide)

theorem iso_mod (cs : List Nat) (hd : ∀ c ∈ cs, isDigit c = true) : ∀ (gs fs : List Nat),
    List.Forall₂ (fun g f => g % 11 = f % 11) gs fs →
    (List.zipWith (fun c g => g * idValue c) cs gs).sum % 11 =
      weightedSum (fun c => c - '0'.toNat) cs fs % 11 := by
  induction cs with
  | nil =>
    intro gs fs _
    simp [weightedSum]
  | cons c cs ih =>
    intro gs fs h
    cases h with
    | nil => simp [weightedSum]
    | cons hgf ht =>
      rename_i g f gs fs
      have ih' := ih (fun x hx => hd x (List.mem_cons_of_mem _ hx)) gs fs ht
      have hc := hd c (List.mem_cons_self _ _)
      have hv : idValue c = c - '0'.toNat := by
        have := digit_value c hc
        have eX : 'X'.toNat = 88 := by decide
        unfold idValue
        rw [if_neg (by omega)]
      simp only [weightedSum, List.zipWith_cons_cons, List.sum_cons] at ih' ⊢
      rw [hv, Nat.add_mod, Nat.mul_mod, hgf, ih', ← Nat.mul_mod, ← Nat.add_mod, Nat.mul_comm]

theorem iso_fin : ∀ m : Fin 11, ∀ x : Fin 128,
    (isDigit x.val || x.val == 'X'.toNat) = true →
      (x.val = idTable.getD m.val 0 ↔ (m.val + idValue x.val) % 11 = 1) := by
  decide

theorem iso_iff (code : GoString) (hpat : matchesIDCardPattern (runes code)) :
    ValidateIDCard code = some true ↔ isoSum (runes code) % 11 = 1 := by
  rw [ValidateIDCard_iff, isValidIDCard]
  have hlen := hpat.1
  obtain ⟨last, hlast⟩ : ∃ x, (runes code).drop 17 = [x] := by
    have h1 : ((runes code).drop 17).length = 1 := by simp [hlen]
    match hr : (runes code).drop 17, h1 with
    | [x], _ => exact ⟨x, rfl⟩
  have hsplit : runes code = (runes code).take 17 ++ [last] := by
    rw [← hlast, List.take_append_drop]
  have h17 : (runes code)[17]? = some last := by
    have := List.getElem?_drop (runes code) 17 0
    rw [hlast] at this
    simpa using this.symm
  have hcls : (isDigit last || last == 'X'.toNat) = true :=
    hpat.2.2.2 last (by rw [hlast]; exact List.mem_singleton_self _)
  have hlt : last < 128 := by
    simp only [isDigit, Bool.or_eq_true, decide_eq_true_eq, beq_iff_eq] at hcls
    have e9 : '9'.toNat = 57 := by decide
    have eX : 'X'.toNat = 88 := by decide
    omega
  have hdig : ∀ c ∈ (runes code).take 17, isDigit c = true := by
    intro c hc
    obtain ⟨j, hj, hjc⟩ := (mem_take_iff _ 17 c).mp hc
    exact idPattern_digit _ hpat j c hj hjc
  have hA := iso_mod _ hdig _ _ isoWeights_mod
  have hsum : isoSum (runes code) =
      (List.zipWith (fun c g => g * idValue c) ((runes code).take 17)
        [131072, 65536, 32768, 16384, 8192, 4096, 2048, 1024, 512, 256, 128, 64, 32, 16, 8,
          4, 2]).sum + idValue last := by
    rw [isoSum, isoWeights_eq]
    conv_lhs => rw [hsplit]
    rw [List.zipWith_append _ _ _ _ _ (by simp [hlen])]
    simp
  have hfin := iso_fin ⟨weightedSum (fun c => c - '0'.toNat) ((runes code).take 17)
    idFactorsNat % 11, Nat.mod_lt _ (by omega)⟩ ⟨last, hlt⟩ hcls
  simp only [] at hfin
  rw [h17, hsum]
  simp only [hpat, true_and, Option.some.injEq]
  constructor
  · intro h
    have := hfin.mp (by rw [h]; rfl)
    omega
  · intro h
    have h2 : (weightedSum (fun c => c - '0'.toNat) ((runes code).take 17) idFactorsNat % 11 +
        idValue last) % 11 = 1 := by omega
    exact hfin.mpr h2

/-! ## The claims on accepted credit codes -/

/-- C11, counterexample: `ValidateUSCI` accepts a code of 18 characters with lowercase
letters, and one with the letter `I`; neither `a` nor `I` is in the 31-symbol alphabet. -/
theorem ValidateUSCI_accepts_outside_alphabet :
    lowercaseCode.length ≠ 15 ∧ ValidateUSCI lowercaseCode = some true ∧
      'a'.toNat ∈ runes lowercaseCode ∧ 'a'.toNat ∉ alphabet31 ∧
      letterICode.length ≠ 15 ∧ ValidateUSCI letterICode = some true ∧
      'I'.toNat ∈ runes letterICode ∧ 'I'.toNat ∉ alphabet31 := by
  decide

/-- C11, amended: for every string of length other than 15 that `ValidateUSCI` accepts,
the characters 1-8, the 17th and the 18th belong to the 31-symbol alphabet, and every
character other than `I`, `O`, `S`, `V`, `Z` belongs to the 31-symbol alphabet or is a
lowercase letter or an underscore at one of the positions 9-16. -/
theorem ValidateUSCI_accepted_alphabet (code : GoString) (h15 : code.length ≠ 15)
    (hacc : ValidateUSCI code = some true) (j c : Nat) (hc : (runes code)[j]? = some c) :
    (j < 8 ∨ 16 ≤ j → c ∈ alphabet31) ∧
      (c ∉ excludedLetters →
        c ∈ alphabet31 ∨ (8 ≤ j ∧ j < 16 ∧ (isLower c = true ∨ c = '_'.toNat))) := by
  obtain ⟨hpat, ⟨c16, h16, hc16⟩, ⟨c17, h17, hc17⟩⟩ := ValidateUSCI_accepted_chars code h15 hacc
  have hlen := hpat.1
  have hj : j < 18 := by
    by_contra hcon
    rw [List.getElem?_eq_none (by omega)] at hc
    cases hc
  have hlt : ∀ x, (isDigit x || x == 'X'.toNat) = true → x < 128 := by
    intro x hx
    simp only [isDigit, Bool.or_eq_true, decide_eq_true_eq, beq_iff_eq] at hx
    have e9 : '9'.toNat = 57 := by decide
    have eX : 'X'.toNat = 88 := by decide
    omega
  have hends : j < 8 ∨ 16 ≤ j → c ∈ alphabet31 := by
    intro h
    rcases h with h | h
    · exact usciHead_mem _ _ hpat j c h hc
    · by_cases e16 : j = 16
      · subst e16
        rw [h16] at hc
        have e : c16 = c := Option.some.inj hc
        rw [← e]
        exact digitX_mem ⟨c16, hlt _ hc16⟩ hc16
      · have e17 : j = 17 := by omega
        subst e17
        rw [h17] at hc
        have e : c17 = c := Option.some.inj hc
        rw [← e]
        exact hc17
  refine ⟨hends, ?_⟩
  intro hex
  by_cases hmid : 8 ≤ j ∧ j < 16
  · have hw := hpat.2.2.2 c ((mem_drop_iff _ 8 c).mpr ⟨j, hmid.1, hc⟩)
    rcases wordChar_cases ⟨c, isWordChar_lt c hw⟩ hw with h | h | h | h
    · exact Or.inl h
    · exact absurd h hex
    · exact Or.inr ⟨hmid.1, hmid.2, Or.inl h⟩
    · exact Or.inr ⟨hmid.1, hmid.2, Or.inr h⟩
  · exact Or.inl (hends (by omega))

/-- C11, witness: the second character of an accepted code with lowercase letters. -/
theorem ValidateUSCI_accepted_alphabet_witness :
    (runes lowercaseCode)[1]? = some '1'.toNat ∧ '1'.toNat ∈ alphabet31 :=
  ⟨by decide,
    (ValidateUSCI_accepted_alphabet lowercaseCode (by decide) (by decide) 1 '1'.toNat
      (by decide)).1 (Or.inl (by decide))⟩

/-- C12, counterexample: for the organization body `00000006` the computed value is 10,
it is remapped to 33, and the character at index 33 is `X`, not `Y`: the code with `X`
at the 17th position is accepted and the same code with `Y` is rejected. -/
theorem ValidateUSCI_check_ten_is_X :
    genCheckCode (GoString.ofString "00000006") orgFactors 11 organizationCheckCodes = some 10 ∧
      remapOrg 10 = 33 ∧
      (index stringCodes36 33).map UInt8.toNat = some 'X'.toNat ∧
      'X'.toNat ≠ 'Y'.toNat ∧
      ValidateUSCI checkTenCode = some true ∧ ValidateUSCI checkTenCodeY = some false := by
  decide

/-- C12, amended: when the computed value `11 - (sum mod 11)` is 10 it is remapped to
index 33 of the 36-symbol string, and the check character then required at the 17th
position of the code is `X`. -/
theorem ValidateUSCI_check_ten (code : GoString) (h15 : code.length ≠ 15)
    (hten : genCheckCode ((code.drop 8).take 8) orgFactors 11 organizationCheckCodes = some 10)
    (hacc : ValidateUSCI code = some true) :
    remapOrg 10 = 33 ∧ alphabet36.getD 33 0 = 'X'.toNat ∧
      (runes code)[16]? = some 'X'.toNat := by
  obtain ⟨hm, hlen, hmap, b16, b17, h16, h17, he1, he2⟩ := ValidateUSCI_accepted code h15 hacc
  obtain ⟨c, hg, hc, _, _⟩ := orgIndex_spec ((code.drop 8).take 8) (by simp [hlen])
  rw [hten] at hg
  have hc10 : (10 : Int) = c := Option.some.inj hg
  refine ⟨by decide, by decide, ?_⟩
  rw [← hmap, List.getElem?_map, h16, Option.map_some', he1, orgExpected, ← hc, ← hc10]
  decide

/-- C12, witness: the code `9131000000000006XU`. -/
theorem ValidateUSCI_check_ten_witness :
    (runes checkTenCode)[16]? = some 'X'.toNat :=
  (ValidateUSCI_check_ten checkTenCode (by decide) (by decide) (by decide)).2.2

/-- C19: for every string of length other than 15 that `ValidateUSCI` accepts, the 17th
character is a digit or `X` and the 18th character belongs to the 31-symbol alphabet;
both calls of `genCheckCode` return a value in `1..mode`, so that after the remapping
only the indices 0..9 and 33, respectively 0..30, are used. -/
theorem ValidateUSCI_check_chars (code : GoString) (h15 : code.length ≠ 15)
    (hacc : ValidateUSCI code = some true) :
    (∃ c, (runes code)[16]? = some c ∧ (isDigit c || c == 'X'.toNat) = true) ∧
      (∃ c, (runes code)[17]? = some c ∧ c ∈ alphabet31) ∧
      (∃ c1, genCheckCode ((code.drop 8).take 8) orgFactors 11 organizationCheckCodes =
          some c1 ∧ 1 ≤ c1 ∧ c1 ≤ 11 ∧
          ((0 ≤ remapOrg c1 ∧ remapOrg c1 ≤ 9) ∨ remapOrg c1 = 33)) ∧
      ∃ c2, genCheckCode (code.take 17) usciFactors 31 socialCreditCheckCodes = some c2 ∧
        1 ≤ c2 ∧ c2 ≤ 31 ∧ 0 ≤ remapUsci c2 ∧ remapUsci c2 ≤ 30 := by
  obtain ⟨_, h16, h17⟩ := ValidateUSCI_accepted_chars code h15 hacc
  obtain ⟨_, hlen, _⟩ := ValidateUSCI_accepted code h15 hacc
  obtain ⟨a0, a1⟩ := orgSum_bounds ((code.drop 8).take 8)
  obtain ⟨g1, l1, u1⟩ := genCheckCode_of_nonneg ((code.drop 8).take 8) orgFactors 11
    organizationCheckCodes (by simp [orgFactors]) (by omega) (by omega) a0 a1
  obtain ⟨b0, b1⟩ := usciSum_bounds (code.take 17)
  obtain ⟨g2, l2, u2⟩ := genCheckCode_of_nonneg (code.take 17) usciFactors 31
    socialCreditCheckCodes (by simp [usciFactors]) (by omega) (by omega) b0 b1
  refine ⟨h16, h17, ⟨_, g1, l1, u1, ?_⟩, ⟨_, g2, l2, u2, ?_⟩⟩
  · unfold remapOrg
    split_ifs <;> omega
  · unfold remapUsci
    split_ifs <;> omega

/-- C19, witness: the code `91310000MA1K3L6J4Y`. -/
theorem ValidateUSCI_check_chars_witness :
    ∃ c, (runes validExampleCode)[17]? = some c ∧ c ∈ alphabet31 :=
  (ValidateUSCI_check_chars validExampleCode (by decide) (by decide)).2.1

/-- C20: the shortcut of `ValidateUSCI` tests the number of bytes. A string of five
characters of three bytes each (15 bytes) is accepted, and a string of fifteen such
characters (45 bytes) is rejected. -/
theorem ValidateUSCI_shortcut_bytes :
    (runes fiveWideChars).length = 5 ∧ fiveWideChars.length = 15 ∧
      ValidateUSCI fiveWideChars = some true ∧
      (runes fifteenWideChars).length = 15 ∧ fifteenWideChars.length = 45 ∧
      ValidateUSCI fifteenWideChars = some false := by
  decide

/-- C18: for every 16-character body made of one of the twelve prefixes, six digits and
eight characters each a digit, an ASCII letter or an underscore, exactly one pair of
characters completes it to a code `ValidateUSCI` accepts; no other text appended to the
body, of any length, is accepted. -/
theorem ValidateUSCI_unique_completion (body : GoString) (hlen : (runes body).length = 16)
    (hp : (runes body).take 2 ∈ usciPrefixes)
    (hd : ∀ c ∈ ((runes body).drop 2).take 6, isDigit c = true)
    (hw : ∀ c ∈ (runes body).drop 8, isWordChar c = true) :
    (∃! p : UInt8 × UInt8, ValidateUSCI (body ++ [p.1, p.2]) = some true) ∧
      ∃ c17 c18 : UInt8, ∀ t : GoString,
        ValidateUSCI (body ++ t) = some true ↔ t = [c17, c18] := by
  obtain ⟨c17, c18, h⟩ := usci_completion body hlen hp hd hw
  refine ⟨⟨(c17, c18), (h _).mpr rfl, ?_⟩, c17, c18, h⟩
  rintro ⟨a, b⟩ hab
  have := (h _).mp hab
  simp only [List.cons.injEq, and_true] at this
  rw [this.1, this.2]

/-- C18, witness: the body `91310000MA1K3L6J`, completed by `4Y` only. -/
theorem ValidateUSCI_unique_completion_witness :
    ∃! p : UInt8 × UInt8,
      ValidateUSCI (GoString.ofString "91310000MA1K3L6J" ++ [p.1, p.2]) = some true :=
  (ValidateUSCI_unique_completion (GoString.ofString "91310000MA1K3L6J") (by decide)
    (by decide) (by decide) (by decide)).1

/-- C13, counterexample: `ValidateUSCI` accepts `91310000________0U` and also the code
obtained by changing its 9th character from `_` to `a`. -/
theorem ValidateUSCI_substitution_undetected :
    (runes underscoreCode).length = 18 ∧ ValidateUSCI underscoreCode = some true ∧
      underscoreCode[8]? = some 95 ∧ (95 : UInt8) ≠ 97 ∧
      underscoreCode.set 8 97 = underscoreCodeA ∧
      ValidateUSCI (underscoreCode.set 8 97) = some true := by
  decide

/-- C13, amended: for every 18-character code that `ValidateUSCI` accepts, changing
exactly one of its characters to a different character yields a code that is rejected,
except possibly when the character is one of the 9th to 16th and the old and the new
character have the same weight in the overall table and weights congruent modulo 11 in
the organization table (a character without entry in a table weighs 0 there). A
replacement that is not one byte long is always rejected. -/
theorem ValidateUSCI_substitution (code : GoString) (hlen : (runes code).length = 18)
    (hacc : ValidateUSCI code = some true) (i : Nat) (hi : i < code.length) (x : UInt8) :
    (x ≠ code[i] →
      ¬ (8 ≤ i ∧ i < 16 ∧
        charWeight socialCreditCheckCodes x = charWeight socialCreditCheckCodes code[i] ∧
        (charWeight organizationCheckCodes x -
          charWeight organizationCheckCodes code[i]) % 11 = 0) →
      ValidateUSCI (code.set i x) = some false) ∧
    ∀ t : GoString, t.length ≠ 1 →
      ValidateUSCI (code.take i ++ t ++ code.drop (i + 1)) = some false := by
  have hl := accepted_length code hlen hacc
  constructor
  · intro hne hex
    by_cases h8 : i < 8
    · exact subst_head code hl hacc i hi h8 x hne
    · by_cases h16 : i < 16
      · by_cases hw : charWeight socialCreditCheckCodes x =
            charWeight socialCreditCheckCodes code[i]
        · apply subst_org code hl hacc i hi (by omega) h16 x
          intro ho
          exact hex ⟨by omega, h16, hw, ho⟩
        · exact subst_overall code hl hacc i hi (by omega) x hw
      · by_cases e16 : i = 16
        · subst e16
          apply subst_16 code hl hacc x
          rw [List.getElem?_eq_getElem hi]
          intro h
          exact hne (Option.some.inj h).symm
        · have e17 : i = 17 := by omega
          subst e17
          apply subst_17 code hl hacc x
          rw [List.getElem?_eq_getElem hi]
          intro h
          exact hne (Option.some.inj h).symm
  · intro t ht
    apply ValidateUSCI_length_rejected
    · simp only [List.length_append, List.length_take, List.length_drop]
      omega
    · simp only [List.length_append, List.length_take, List.length_drop]
      omega

/-- C13, witness: the 11th character of `91310000MA1K3L6J4Y` changed from `1` to `B`. -/
theorem ValidateUSCI_substitution_witness :
    ValidateUSCI (validExampleCode.set 10 66) = some false :=
  (ValidateUSCI_substitution validExampleCode (by decide) (by decide) 10 (by decide) 66).1
    (by decide) (by decide)

/-- C17: for every 18-character code that `ValidateUSCI` accepts, every position and
every character `x` of the 31-symbol alphabet different from the character at that
position, if the character at that position also belongs to the alphabet then the code
with that position replaced by `x` is rejected. -/
theorem ValidateUSCI_alphabet_substitution (code : GoString)
    (hlen : (runes code).length = 18) (hacc : ValidateUSCI code = some true) (i : Nat)
    (hi : i < code.length) (x : UInt8) (hxa : x.toNat ∈ alphabet31) (hne : x ≠ code[i])
    (hca : code[i].toNat ∈ alphabet31) :
    ValidateUSCI (code.set i x) = some false := by
  have hl := accepted_length code hlen hacc
  by_cases h17 : i < 17
  · exact subst_overall code hl hacc i hi h17 x (charWeight_ne_of_alphabet _ _ hxa hca hne)
  · have e17 : i = 17 := by omega
    subst e17
    apply subst_17 code hl hacc x
    rw [List.getElem?_eq_getElem hi]
    intro h
    exact hne (Option.some.inj h).symm

/-- C17, witness: the last character of `91310000MA1K3L6J4Y` changed from `Y` to `0`. -/
theorem ValidateUSCI_alphabet_substitution_witness :
    ValidateUSCI (validExampleCode.set 17 48) = some false :=
  ValidateUSCI_alphabet_substitution validExampleCode (by decide) (by decide) 17 (by decide)
    48 (by decide) (by decide) (by decide)

/-! ## The claims on identity cards -/

/-- C14: `ValidateIDCard` implements ISO 7064 MOD 11-2 with the check value 10 written
`X`: for every string matching the identity-card pattern, it returns true if and only if
the sum over `i = 0..17` of `2 ^ (17 - i) * a_i` is congruent to 1 modulo 11. -/
theorem ValidateIDCard_iso7064 (code : GoString) (hpat : matchesIDCardPattern (runes code)) :
    ValidateIDCard code = some true ↔ isoSum (runes code) % 11 = 1 :=
  iso_iff code hpat

/-- C14, witness: the number `11010519491231002X`. -/
theorem ValidateIDCard_iso7064_witness : isoSum (runes validIDCard) % 11 = 1 :=
  (ValidateIDCard_iso7064 validIDCard (by unfold matchesIDCardPattern; decide)).mp (by decide)

/-- C15: for every string that `ValidateIDCard` accepts and every position 0..17,
replacing the character at that position by any different character yields a string
that is rejected; so does a replacement that is not one byte long. -/
theorem ValidateIDCard_substitution (code : GoString)
    (hacc : ValidateIDCard code = some true) (i : Nat) (hi : i < code.length) :
    (∀ x : UInt8, x ≠ code[i] → ValidateIDCard (code.set i x) = some false) ∧
      ∀ t : GoString, t.length ≠ 1 →
        ValidateIDCard (code.take i ++ t ++ code.drop (i + 1)) = some false := by
  have hlen := (ValidateIDCard_accepted code hacc).2.2.1
  constructor
  · intro x hne
    by_cases h17 : i < 17
    · exact id_subst_first code hacc i hi h17 x hne
    · have e17 : i = 17 := by omega
      subst e17
      apply id_subst_last code hacc x
      rw [List.getElem?_eq_getElem hi]
      intro h
      exact hne (Option.some.inj h).symm
  · intro t ht
    apply ValidateIDCard_rejected_of
    intro hacc2
    have hlen2 := (ValidateIDCard_accepted _ hacc2).2.2.1
    simp only [List.length_append, List.length_take, List.length_drop] at hlen2
    omega

/-- C15, witness: the first digit of `11010519491231002X` changed from `1` to `2`. -/
theorem ValidateIDCard_substitution_witness :
    ValidateIDCard (validIDCard.set 0 50) = some false :=
  (ValidateIDCard_substitution validIDCard (by decide) 0 (by decide)).1 50 (by decide)

/-- C16: for every string that `ValidateIDCard` accepts and every `i` in 0..16 such that
the characters at positions `i` and `i + 1` differ, the string obtained by swapping these
two characters is rejected. -/
theorem ValidateIDCard_transposition (code : GoString)
    (hacc : ValidateIDCard code = some true) (i : Nat) (hi : i + 1 < code.length)
    (hne : code[i] ≠ code[i + 1]) :
    ValidateIDCard ((code.set i code[i + 1]).set (i + 1) code[i]) = some false := by
  have hlen := (ValidateIDCard_accepted code hacc).2.2.1
  by_cases h16 : i < 16
  · exact id_swap_inner code hacc i hi h16 hne
  · have e16 : i = 16 := by omega
    subst e16
    exact id_swap_last code hacc hi hne

/-- C16, witness: the last two characters of `100000000000000005` swapped. -/
theorem ValidateIDCard_transposition_witness :
    ValidateIDCard (GoString.ofString "100000000000000050") = some false :=
  ValidateIDCard_transposition validIDCardDigit (by decide) 16 (by decide) (by decide)

end Validate
